import Mathlib

/-!
Verification of the Firefly Algorithm optimizer (`src/fa/fa.py`).

The Python module is shallowly embedded over exact rationals:

* positions and objective values are `List ℚ` / `ℚ` (exact real arithmetic
  stands in for IEEE doubles);
* the single sequential NumPy random source (`np.random.default_rng(seed)`) is
  an explicit stream `u : ℕ → ℚ` together with a cursor `rngPos` stored in the
  state: `Generator.random()` reads the next stream value, and
  `Generator.uniform(lo, hi)` reads the next stream value `v` and returns
  `lo + (hi - lo) * v`, one draw per generated array element, in C (row-major)
  order — exactly NumPy's consumption pattern;
* the transcendental `np.exp` is an oracle parameter `expO : ℚ → ℚ` (any
  faithful rational embedding must abstract it); `np.linalg.norm(x - y) ** 2`
  is embedded as the squared Euclidean norm `sqnorm (vsub x y)`, which it
  equals in exact arithmetic;
* the objective callable is a parameter `f : List ℚ → ℚ`; a second embedding
  (`stepE`, `runE`) lets the objective raise (`Except`) and return IEEE
  non-finite values (`FVal`), for the error-handling analysis;
* NumPy's own construction-time errors are embedded too: `Generator.uniform`
  raises `ValueError` when `high - low` is negative on some dimension, and
  `np.apply_along_axis` raises `ValueError` when its iteration dimension is
  zero (`n = 0`); both live in `init_populationE`, through which `__init__`
  is embedded.
-/

/-- Membership of a position in the axis-aligned bounds box: the right number
of coordinates, each inside its dimension's `[lower, upper]` interval. -/
def inBox (bounds : List (ℚ × ℚ)) (x : List ℚ) : Prop :=
  x.length = bounds.length ∧
    ∀ k < bounds.length,
      (bounds.getD k (0, 0)).1 ≤ x.getD k 0 ∧ x.getD k 0 ≤ (bounds.getD k (0, 0)).2

instance (bounds : List (ℚ × ℚ)) (x : List ℚ) : Decidable (inBox bounds x) := by
  unfold inBox; infer_instance

/-- Embeds the `FAParams` dataclass. The `seed` field is realized by the
explicit draw stream `u : ℕ → ℚ` passed alongside (a fixed seed determines a
fixed stream). -/
structure FAParams where
  n : ℕ
  d : ℕ
  alpha : ℚ
  beta0 : ℚ
  gamma : ℚ
  iters : ℕ
  minimize : Bool
  lower : ℚ
  upper : ℚ
deriving DecidableEq

/-- Embeds `_as_bounds(lower, upper, d)`: `d` copies of the pair. -/
def as_bounds (lower upper : ℚ) (d : ℕ) : List (ℚ × ℚ) :=
  List.replicate d (lower, upper)

/-- The attributes a constructed `Firefly` instance holds (`self.n`, `self.d`,
`self.alpha`, `self.beta0`, `self.gamma`, `self.iters`, `self.minimize` and the
resolved `self.bounds`). -/
structure Cfg where
  n : ℕ
  d : ℕ
  alpha : ℚ
  beta0 : ℚ
  gamma : ℚ
  iters : ℕ
  minimize : Bool
  bounds : List (ℚ × ℚ)
deriving DecidableEq

/-- Copies the dataclass fields into instance attributes, with the resolved
bounds array. -/
def mkCfg (P : FAParams) (bounds : List (ℚ × ℚ)) : Cfg :=
  { n := P.n, d := P.d, alpha := P.alpha, beta0 := P.beta0, gamma := P.gamma,
    iters := P.iters, minimize := P.minimize, bounds := bounds }

/-- The mutable population state: `self.X`, `self.values`, `self.I`,
`self.best_idx`, plus the random-source cursor (how many draws the NumPy
generator has consumed so far). -/
structure FAState where
  X : List (List ℚ)
  values : List ℚ
  I : List ℚ
  best_idx : ℕ
  rngPos : ℕ
deriving DecidableEq

/-- Embeds `_brightness`: negate the value vector when minimizing, keep it
when maximizing. -/
def brightness (minimize : Bool) (fvals : List ℚ) : List ℚ :=
  if minimize then fvals.map (fun v => -v) else fvals

/-- Coordinatewise difference `x - y` (NumPy broadcasting on two equal-length
vectors). -/
def vsub (x y : List ℚ) : List ℚ :=
  (x.zip y).map (fun p => p.1 - p.2)

/-- Squared Euclidean norm: `np.linalg.norm(v) ** 2` in exact arithmetic. -/
def sqnorm (v : List ℚ) : ℚ :=
  (v.map (fun a => a * a)).sum

/-- Embeds `int(np.argmax(I))`: index of the first occurrence of the maximum
(0 on an empty array). The single left-to-right scan keeps the earliest
strictly-greater element. -/
def argmaxIdx (l : List ℚ) : ℕ :=
  (List.range l.length).foldl (fun b i => if l.getD i 0 > l.getD b 0 then i else b) 0

/-- Embeds `_move_towards(xi, xj, beta)`: `xi + beta*(xj - xi) + alpha*(U - 0.5)`
where `U` is the next `d` stream draws starting at cursor `r`. -/
def move_towards (c : Cfg) (u : ℕ → ℚ) (r : ℕ) (xi xj : List ℚ) (beta : ℚ) : List ℚ :=
  (List.range c.d).map (fun k =>
    xi.getD k 0 + beta * (xj.getD k 0 - xi.getD k 0) + c.alpha * (u (r + k) - 1/2))

/-- Embeds one row of `_clip`: `np.clip(x, lower, upper)` computes
`min(max(x, lower), upper)` coordinatewise. -/
def clipRow (bounds : List (ℚ × ℚ)) (x : List ℚ) : List ℚ :=
  (x.zip bounds).map (fun p => min (max p.1 p.2.1) p.2.2)

/-- The state `_init_population` computes when it succeeds:
`X = rng.uniform(lo, hi, size=(n, d))` draws `n*d` stream values row-major,
each scaled as `lo_k + (hi_k - lo_k) * v`; then `values = f` applied to every
row, `I = _brightness(values)`, and `best_idx = argmax(I)`. The cursor ends at
`n * d`. (`_init_population`'s `ValueError` paths are carried by
`init_populationE`, which wraps this definition.) -/
def init_population (c : Cfg) (f : List ℚ → ℚ) (u : ℕ → ℚ) : FAState :=
  let X := (List.range c.n).map (fun i => (List.range c.d).map (fun k =>
    (c.bounds.getD k (0, 0)).1 +
      ((c.bounds.getD k (0, 0)).2 - (c.bounds.getD k (0, 0)).1) * u (i * c.d + k)))
  let values := X.map f
  let I := brightness c.minimize values
  { X := X, values := values, I := I, best_idx := argmaxIdx I, rngPos := c.n * c.d }

/-- The construction-time failures of `Firefly.__init__`: the
`assert self.bounds.shape == (self.d, 2)` guard on explicitly passed bounds
(`AssertionError`), and the `ValueError`s NumPy raises inside
`_init_population` (`Generator.uniform` rejects a negative `high - low`;
`np.apply_along_axis` rejects a zero iteration dimension). -/
inductive ConfigErr where
  | assertionError
  | valueError
deriving DecidableEq

/-- Embeds `_init_population` with its error paths:
`rng.uniform(lo, hi, size=(n, d))` raises `ValueError`
("high - low must be non-negative") when `hi_k < lo_k` on some dimension;
then `np.apply_along_axis(func, 1, X)` raises `ValueError`
("Cannot apply_along_axis when any iteration dimensions are 0") when `n = 0`;
otherwise the population state of `init_population` results. -/
def init_populationE (c : Cfg) (f : List ℚ → ℚ) (u : ℕ → ℚ) :
    Except ConfigErr FAState :=
  if ∃ p ∈ c.bounds, p.2 < p.1 then .error .valueError
  else if c.n = 0 then .error .valueError
  else .ok (init_population c f u)

/-- Embeds `Firefly.__init__`: resolve bounds (broadcast the scalar pair when
`bounds is None`, otherwise check the `(d, 2)` shape by assertion), then
initialize and evaluate the population via `_init_population`, whose
`ValueError`s surface here. -/
def fireflyInit (P : FAParams) (boundsOpt : Option (List (ℚ × ℚ)))
    (f : List ℚ → ℚ) (u : ℕ → ℚ) : Except ConfigErr (Cfg × FAState) :=
  match boundsOpt with
  | none =>
    let c := mkCfg P (as_bounds P.lower P.upper P.d)
    match init_populationE c f u with
    | .error e => .error e
    | .ok s => .ok (c, s)
  | some bs =>
    if bs.length = P.d then
      let c := mkCfg P bs
      match init_populationE c f u with
      | .error e => .error e
      | .ok s => .ok (c, s)
    else
      .error .assertionError

/-- Embeds `Firefly.step`. The candidate double loop starts from
`X_new = X.copy()` and threads the random cursor; each brighter pair `(i, j)`
overwrites row `i` of the accumulator with a proposal built from the
start-of-step `self.X[i]`, `self.X[j]` and consumes `d` draws. Then candidates
are clipped, evaluated, and accepted per firefly iff strictly brighter (the
acceptance loop reads `self.I[i]` before its only write to index `i`, so the
comparison is against the pre-acceptance brightness), and `best_idx` is
recomputed. -/
def stepFA (c : Cfg) (expO : ℚ → ℚ) (f : List ℚ → ℚ) (u : ℕ → ℚ) (s : FAState) : FAState :=
  let inner := (List.range c.n).foldl (fun (acc : List (List ℚ) × ℕ) i =>
    (List.range c.n).foldl (fun (acc2 : List (List ℚ) × ℕ) j =>
      if s.I.getD j 0 > s.I.getD i 0 then
        let rij2 := sqnorm (vsub (s.X.getD i []) (s.X.getD j []))
        let beta := c.beta0 * expO (-(c.gamma * rij2))
        (acc2.1.set i (move_towards c u acc2.2 (s.X.getD i []) (s.X.getD j []) beta),
         acc2.2 + c.d)
      else acc2) acc) (s.X, s.rngPos)
  let Xc := inner.1.map (clipRow c.bounds)
  let vals_new := Xc.map f
  let I_new := brightness c.minimize vals_new
  let accepted := (List.range c.n).foldl
    (fun (t : List (List ℚ) × List ℚ × List ℚ) i =>
      if I_new.getD i 0 > s.I.getD i 0 then
        (t.1.set i (Xc.getD i []), t.2.1.set i (vals_new.getD i 0), t.2.2.set i (I_new.getD i 0))
      else t) (s.X, s.values, s.I)
  { X := accepted.1, values := accepted.2.1, I := accepted.2.2,
    best_idx := argmaxIdx accepted.2.2, rngPos := inner.2 }

/-- Iterates `step` a given number of times. -/
def stepIter (c : Cfg) (expO : ℚ → ℚ) (f : List ℚ → ℚ) (u : ℕ → ℚ) : ℕ → FAState → FAState
  | 0, s => s
  | t + 1, s => stepIter c expO f u t (stepFA c expO f u s)

/-- The body of `Firefly.run`'s loop: perform `k` steps, collecting after each
step the best value (`self.values[self.best_idx]`) and the population snapshot
(`self.X.copy()`), both in iteration order. Returns the final state, the
best-value history, and the post-step snapshots. -/
def runLoop (c : Cfg) (expO : ℚ → ℚ) (f : List ℚ → ℚ) (u : ℕ → ℚ) :
    ℕ → FAState → FAState × List ℚ × List (List (List ℚ))
  | 0, s => (s, [], [])
  | k + 1, s =>
    let s1 := stepFA c expO f u s
    let r := runLoop c expO f u k s1
    (r.1, s1.values.getD s1.best_idx 0 :: r.2.1, s1.X :: r.2.2)

/-- The tuple `Firefly.run` returns: `self.X[self.best_idx].copy()`,
`float(self.values[self.best_idx])`, and the `info` record. -/
structure RunResult where
  best_x : List ℚ
  best_val : ℚ
  best_idx : ℕ
  history_best : List ℚ
  best_intensity : ℚ
  history_positions : Option (List (List (List ℚ)))
deriving DecidableEq

/-- Embeds `Firefly.run(track_positions)`: execute exactly `iters` steps,
record the initial snapshot first when tracking, and read the result off the
final state. -/
def runFA (c : Cfg) (expO : ℚ → ℚ) (f : List ℚ → ℚ) (u : ℕ → ℚ)
    (track : Bool) (s : FAState) : RunResult :=
  let r := runLoop c expO f u c.iters s
  let sf := r.1
  { best_x := sf.X.getD sf.best_idx []
    best_val := sf.values.getD sf.best_idx 0
    best_idx := sf.best_idx
    history_best := r.2.1
    best_intensity := sf.I.getD sf.best_idx 0
    history_positions := if track then some (s.X :: r.2.2) else none }

/-- Constructing a `Firefly` and calling `run` on it, as one program. -/
def constructAndRun (P : FAParams) (boundsOpt : Option (List (ℚ × ℚ)))
    (expO : ℚ → ℚ) (f : List ℚ → ℚ) (u : ℕ → ℚ) (track : Bool) :
    Except ConfigErr RunResult :=
  match fireflyInit P boundsOpt f u with
  | .error e => .error e
  | .ok cs => .ok (runFA cs.1 expO f u track cs.2)

/-- Embeds the module-level `optimize` convenience function: build `FAParams`
from the individual arguments, construct a `Firefly` with `bounds=None` (the
broadcast path, whose shape assertion cannot fire), and run it. -/
def optimize (f : List ℚ → ℚ) (d n : ℕ) (iters : ℕ) (alpha beta0 gamma : ℚ)
    (minimize : Bool) (lower upper : ℚ) (expO : ℚ → ℚ) (u : ℕ → ℚ)
    (track : Bool) : RunResult :=
  let P : FAParams :=
    { n := n, d := d, alpha := alpha, beta0 := beta0, gamma := gamma,
      iters := iters, minimize := minimize, lower := lower, upper := upper }
  let c := mkCfg P (as_bounds P.lower P.upper P.d)
  runFA c expO f u track (init_population c f u)

/-!
Specification-side description of one step (for the refinement claim C1).
These definitions follow the spec's words, to be compared with `stepFA`,
which is translated from the source.
-/

/-- Indices `j < n` whose brightness strictly exceeds that of `i`, in
increasing order. -/
def brighterSet (I : List ℚ) (n i : ℕ) : List ℕ :=
  (List.range n).filter (fun j => I.getD j 0 > I.getD i 0)

/-- Number of ordered pairs `(i', j)` with `i' ≤ i` and `j` strictly brighter
than `i'` — the d-vectors of randomness drawn once the step's loop has finished
row `i`. -/
def drawsThrough (I : List ℚ) (n i : ℕ) : ℕ :=
  (((List.range (i + 1)).map (fun q => (brighterSet I n q).length))).sum

/-- Total number of ordered brighter pairs in one step. -/
def totalBrighterPairs (I : List ℚ) (n : ℕ) : ℕ :=
  (((List.range n).map (fun q => (brighterSet I n q).length))).sum

/-- Maximum entry of a brightness array (0 for the empty array, matching the
`argmax`-on-empty convention of the embedding). -/
def maxOf (l : List ℚ) : ℚ :=
  l.foldl max (l.getD 0 0)

/-- First-occurrence arg-max: the least index whose entry equals the maximum. -/
def specArgmax (l : List ℚ) : ℕ :=
  l.findIdx (fun v => v = maxOf l)

/-- The candidate position the spec prescribes for firefly `i`: the proposal
from the last brighter `j` (in increasing `j` order), built from `i`'s
start-of-step position, with the fresh uniform draws the loop order implies —
the pair `(i, j_last)` is the `drawsThrough I n i`-th brighter pair, so its
`d` draws start at cursor `r0 + d * (drawsThrough I n i - 1)`. Fireflies with
no brighter neighbor keep their start-of-step position as candidate. -/
def candSpec (c : Cfg) (expO : ℚ → ℚ) (u : ℕ → ℚ) (X : List (List ℚ))
    (I : List ℚ) (r0 i : ℕ) : List ℚ :=
  match (brighterSet I c.n i).getLast? with
  | none => X.getD i []
  | some j =>
    let xi := X.getD i []
    let xj := X.getD j []
    let beta := c.beta0 * expO (-(c.gamma * sqnorm (vsub xi xj)))
    let off := r0 + c.d * (drawsThrough I c.n i - 1)
    (List.range c.d).map (fun k =>
      xi.getD k 0 + beta * (xj.getD k 0 - xi.getD k 0) + c.alpha * (u (off + k) - 1/2))

/-- One step as the claim states it: per-firefly candidates (later brighter
neighbors overwriting earlier ones), coordinatewise clipping, evaluation of
all `n` candidates, strict-improvement acceptance replacing position, value
and brightness together, first-occurrence arg-max for `best_idx`, and
`d` draws of randomness consumed per brighter pair. -/
def stepSpec (c : Cfg) (expO : ℚ → ℚ) (f : List ℚ → ℚ) (u : ℕ → ℚ) (s : FAState) : FAState :=
  let Xc := ((List.range c.n).map (candSpec c expO u s.X s.I s.rngPos)).map (clipRow c.bounds)
  let vals := Xc.map f
  let Inew := brightness c.minimize vals
  let acc := fun i => Inew.getD i 0 > s.I.getD i 0
  { X := (List.range c.n).map (fun i => if acc i then Xc.getD i [] else s.X.getD i [])
    values := (List.range c.n).map (fun i => if acc i then vals.getD i 0 else s.values.getD i 0)
    I := (List.range c.n).map (fun i => if acc i then Inew.getD i 0 else s.I.getD i 0)
    best_idx := specArgmax ((List.range c.n).map (fun i => if acc i then Inew.getD i 0 else s.I.getD i 0))
    rngPos := s.rngPos + c.d * totalBrighterPairs s.I c.n }

/-- Well-formedness of a population state for a configuration: the three
population arrays have `n` entries. -/
def WF (c : Cfg) (s : FAState) : Prop :=
  s.X.length = c.n ∧ s.values.length = c.n ∧ s.I.length = c.n

instance (c : Cfg) (s : FAState) : Decidable (WF c s) := by
  unfold WF; infer_instance

/-- Run-time invariant of a constructed optimizer state: well-formed lengths,
every position inside the box, `values` consistent with the objective,
brightness consistent with `values`, and `best_idx` current. It holds after
`_init_population` and is preserved by `step`. -/
def FAInv (c : Cfg) (f : List ℚ → ℚ) (s : FAState) : Prop :=
  WF c s ∧ (∀ x ∈ s.X, inBox c.bounds x) ∧ s.values = s.X.map f
    ∧ s.I = brightness c.minimize s.values ∧ s.best_idx = argmaxIdx s.I

instance (c : Cfg) (f : List ℚ → ℚ) (s : FAState) : Decidable (FAInv c f s) := by
  unfold FAInv; infer_instance

/-!
Exception-aware embedding for the error-handling analysis (C9). Objective
values live in `FVal` — exact rationals extended with the IEEE non-finite
magnitudes `inf` and `-inf` (comparisons and negation match IEEE semantics on
these; `nan` does not arise in the analyzed runs) — and the objective callable
may raise, returning `Except ε FVal`. Python exception propagation is the
`Except` monad's: the source has no `try`/`except`, so every bind is a plain
propagation point.
-/

/-- Objective values as IEEE doubles carry them: a finite magnitude or an
infinity. -/
inductive FVal where
  | negInf
  | fin (q : ℚ)
  | posInf
deriving DecidableEq

/-- IEEE `<` on non-nan doubles. -/
def FVal.blt : FVal → FVal → Bool
  | .negInf, .negInf => false
  | .negInf, _ => true
  | .fin _, .negInf => false
  | .fin a, .fin b => a < b
  | .fin _, .posInf => true
  | .posInf, _ => false

/-- IEEE negation on non-nan doubles. -/
def FVal.neg : FVal → FVal
  | .negInf => .posInf
  | .fin q => .fin (-q)
  | .posInf => .negInf

/-- Finiteness predicate (`np.isfinite`). -/
def FVal.isFinite : FVal → Bool
  | .fin _ => true
  | _ => false

/-- `_brightness` over possibly non-finite values. -/
def brightnessE (minimize : Bool) (fvals : List FVal) : List FVal :=
  if minimize then fvals.map FVal.neg else fvals

/-- `int(np.argmax(I))` over possibly non-finite values. -/
def argmaxIdxE (l : List FVal) : ℕ :=
  (List.range l.length).foldl
    (fun b i => if FVal.blt (l.getD b (.fin 0)) (l.getD i (.fin 0)) then i else b) 0

/-- Sequential evaluation of the objective over the candidate rows, as
`np.apply_along_axis` performs it: the first raised exception aborts and
propagates. -/
def mapExcept {ε α β : Type} (f : α → Except ε β) : List α → Except ε (List β)
  | [] => .ok []
  | x :: t => do
    let v ← f x
    let r ← mapExcept f t
    .ok (v :: r)

/-- Population state for the exception-aware embedding. -/
structure FAStateE where
  X : List (List ℚ)
  values : List FVal
  I : List FVal
  best_idx : ℕ
  rngPos : ℕ
deriving DecidableEq

/-- `Firefly.step` with a raising objective: the candidate phase is identical
to `stepFA` (it never calls the objective); the `n` evaluations run
sequentially and the first exception propagates; no value, finite or not, is
inspected for finiteness anywhere. -/
def stepE {ε : Type} (c : Cfg) (expO : ℚ → ℚ) (f : List ℚ → Except ε FVal)
    (u : ℕ → ℚ) (s : FAStateE) : Except ε FAStateE :=
  let inner := (List.range c.n).foldl (fun (acc : List (List ℚ) × ℕ) i =>
    (List.range c.n).foldl (fun (acc2 : List (List ℚ) × ℕ) j =>
      if FVal.blt (s.I.getD i (.fin 0)) (s.I.getD j (.fin 0)) then
        let rij2 := sqnorm (vsub (s.X.getD i []) (s.X.getD j []))
        let beta := c.beta0 * expO (-(c.gamma * rij2))
        (acc2.1.set i (move_towards c u acc2.2 (s.X.getD i []) (s.X.getD j []) beta),
         acc2.2 + c.d)
      else acc2) acc) (s.X, s.rngPos)
  let Xc := inner.1.map (clipRow c.bounds)
  do
    let vals_new ← mapExcept f Xc
    let I_new := brightnessE c.minimize vals_new
    let accepted := (List.range c.n).foldl
      (fun (t : List (List ℚ) × List FVal × List FVal) i =>
        if FVal.blt (s.I.getD i (.fin 0)) (I_new.getD i (.fin 0)) then
          (t.1.set i (Xc.getD i []), t.2.1.set i (vals_new.getD i (.fin 0)),
           t.2.2.set i (I_new.getD i (.fin 0)))
        else t) (s.X, s.values, s.I)
    .ok { X := accepted.1, values := accepted.2.1, I := accepted.2.2,
          best_idx := argmaxIdxE accepted.2.2, rngPos := inner.2 }

/-- The `Firefly.run` iteration with a raising objective. The history
bookkeeping of `run` is pure and cannot fail, so the error flow of `run` is
exactly that of its `iters`-fold step iteration, which this models. -/
def runE {ε : Type} (c : Cfg) (expO : ℚ → ℚ) (f : List ℚ → Except ε FVal)
    (u : ℕ → ℚ) : ℕ → FAStateE → Except ε FAStateE
  | 0, s => .ok s
  | k + 1, s => do
    let s1 ← stepE c expO f u s
    runE c expO f u k s1

/-- Net effect of the inner `j` loop of `Firefly.step` on the accumulator for
one fixed row `i`: if any `j` passes the filter, row `i` ends up overwritten by
the proposal built from the last such `j`, whose draws start after the draws of
the earlier passing `j`; the cursor advances by `dd` per passing `j`. -/
def rowEffect (flt : ℕ → List ℕ) (prop : ℕ → ℕ → ℕ → List ℚ) (dd : ℕ)
    (acc : List (List ℚ) × ℕ) (i : ℕ) : List (List ℚ) × ℕ :=
  (match (flt i).getLast? with
   | none => acc.1
   | some jl => acc.1.set i (prop i jl (acc.2 + dd * ((flt i).length - 1))),
   acc.2 + dd * (flt i).length)

/-!
General list lemmas used by the fold characterizations.
-/

theorem getD_set_self {α : Type} (l : List α) (i : ℕ) (a d : α) (h : i < l.length) :
    (l.set i a).getD i d = a := by
  rw [List.getD_eq_getElem _ _ (by simpa using h), List.getElem_set]
  simp

theorem getD_set_ne {α : Type} (l : List α) (i j : ℕ) (a d : α) (h : i ≠ j) :
    (l.set i a).getD j d = l.getD j d := by
  simp [List.getD_eq_getElem?_getD, List.getElem?_set_ne h]

theorem getD_set_of_length_le {α : Type} (l : List α) (i j : ℕ) (a d : α)
    (h : l.length ≤ i) : (l.set i a).getD j d = l.getD j d := by
  rw [List.set_eq_of_length_le h]

theorem getD_map_neg (l : List ℚ) (i : ℕ) :
    (l.map (fun v => -v)).getD i 0 = -(l.getD i 0) := by
  simp only [List.getD_eq_getElem?_getD, List.getElem?_map]
  cases l[i]? <;> simp

theorem eq_of_getD {α : Type} (d : α) (l₁ l₂ : List α) (hlen : l₁.length = l₂.length)
    (h : ∀ i, l₁.getD i d = l₂.getD i d) : l₁ = l₂ := by
  refine List.ext_getElem hlen (fun n h1 h2 => ?_)
  have := h n
  rwa [List.getD_eq_getElem _ _ h1, List.getD_eq_getElem _ _ h2] at this

/-- Characterization of a fold over `List.range' a b` that conditionally sets
index `i` at iteration `i`. -/
theorem foldSet_char {α : Type} (cond : ℕ → Prop) [DecidablePred cond] (g : ℕ → α) (d : α) :
    ∀ (b a : ℕ) (L : List α),
      (((List.range' a b).foldl (fun l i => if cond i then l.set i (g i) else l) L).length
        = L.length)
      ∧ ∀ m, ((List.range' a b).foldl (fun l i => if cond i then l.set i (g i) else l) L).getD m d
          = if a ≤ m ∧ m < a + b ∧ cond m ∧ m < L.length then g m else L.getD m d := by
  intro b
  induction b with
  | zero =>
    intro a L
    refine ⟨rfl, fun m => ?_⟩
    rw [if_neg]
    · rfl
    · rintro ⟨h1, h2, _⟩; omega
  | succ k ih =>
    intro a L
    rw [List.range'_succ, List.foldl_cons]
    by_cases ha : cond a
    · rw [if_pos ha]
      obtain ⟨ihlen, ihget⟩ := ih (a + 1) (L.set a (g a))
      refine ⟨by rw [ihlen, List.length_set], fun m => ?_⟩
      rw [ihget m, List.length_set]
      by_cases hm : a + 1 ≤ m ∧ m < a + 1 + k ∧ cond m ∧ m < L.length
      · rw [if_pos hm, if_pos ⟨by omega, by omega, hm.2.2⟩]
      · rw [if_neg hm]
        by_cases hma : m = a
        · subst hma
          by_cases hlt : m < L.length
          · rw [getD_set_self _ _ _ _ hlt, if_pos ⟨le_refl m, by omega, ha, hlt⟩]
          · rw [getD_set_of_length_le _ _ _ _ _ (by omega), if_neg (by tauto)]
        · rw [getD_set_ne _ _ _ _ _ (fun hh => hma hh.symm), if_neg (by
            rintro ⟨h1, h2, h3, h4⟩
            exact hm ⟨by omega, by omega, h3, h4⟩)]
    · rw [if_neg ha]
      obtain ⟨ihlen, ihget⟩ := ih (a + 1) L
      refine ⟨ihlen, fun m => ?_⟩
      rw [ihget m]
      by_cases hm : a + 1 ≤ m ∧ m < a + 1 + k ∧ cond m ∧ m < L.length
      · rw [if_pos hm, if_pos ⟨by omega, by omega, hm.2.2.1, hm.2.2.2⟩]
      · rw [if_neg hm]
        rw [if_neg (by
          rintro ⟨h1, h2, h3, h4⟩
          rcases Nat.eq_or_lt_of_le h1 with he | hlt
          · exact ha (he ▸ h3)
          · exact hm ⟨by omega, by omega, h3, h4⟩)]

/-- The acceptance loop updates its three arrays independently: the triple
fold is the triple of single folds. -/
theorem foldTriple_split {α β γ : Type} (cond : ℕ → Prop) [DecidablePred cond]
    (gx : ℕ → α) (gv : ℕ → β) (gi : ℕ → γ) :
    ∀ (js : List ℕ) (A : List α) (B : List β) (C : List γ),
      (js.foldl (fun (t : List α × List β × List γ) i =>
        if cond i then (t.1.set i (gx i), t.2.1.set i (gv i), t.2.2.set i (gi i)) else t)
        (A, B, C))
      = (js.foldl (fun l i => if cond i then l.set i (gx i) else l) A,
         js.foldl (fun l i => if cond i then l.set i (gv i) else l) B,
         js.foldl (fun l i => if cond i then l.set i (gi i) else l) C) := by
  intro js
  induction js with
  | nil => intro A B C; rfl
  | cons j t iht =>
    intro A B C
    simp only [List.foldl_cons]
    by_cases hj : cond j
    · rw [if_pos hj, if_pos hj, if_pos hj, if_pos hj, iht]
    · rw [if_neg hj, if_neg hj, if_neg hj, if_neg hj, iht]

/-- Characterization of one row's inner `j` loop: folding the conditional
proposal-overwrite over any index list equals `rowEffect` of the filtered
list. -/
theorem innerFold_char {bright : ℕ → Prop} [DecidablePred bright]
    (prop : ℕ → ℕ → List ℚ) (i dd : ℕ) :
    ∀ (js : List ℕ) (A : List (List ℚ)) (r : ℕ),
      (js.foldl (fun (acc : List (List ℚ) × ℕ) j =>
          if bright j then (acc.1.set i (prop j acc.2), acc.2 + dd) else acc) (A, r))
        = ((match (js.filter (fun j => decide (bright j))).getLast? with
            | none => A
            | some jl =>
              A.set i (prop jl (r + dd * ((js.filter (fun j => decide (bright j))).length - 1)))),
           r + dd * (js.filter (fun j => decide (bright j))).length) := by
  intro js
  induction js with
  | nil => intro A r; simp
  | cons j t iht =>
    intro A r
    rw [List.foldl_cons, List.filter_cons]
    by_cases hj : bright j
    · rw [if_pos hj, if_pos (by simpa using hj), iht]
      rcases hF : t.filter (fun j => decide (bright j)) with _ | ⟨f0, F⟩
      · simp
      · rw [List.getLast?_cons_cons]
        rcases hL : (f0 :: F).getLast? with _ | jl
        · exact absurd (List.getLast?_eq_none_iff.mp hL) (by simp)
        · simp only [List.length_cons, List.set_set, Nat.add_sub_cancel]
          have h1 : r + dd + dd * F.length = r + dd * (F.length + 1) := by ring
          have h2 : r + dd + dd * (F.length + 1) = r + dd * (F.length + 1 + 1) := by ring
          rw [h1, h2]
    · rw [if_neg hj, if_neg (by simpa using hj), iht]

/-- Characterization of the outer `i` loop of the candidate phase: final
cursor, preserved length, rows outside the processed range untouched, and each
processed row given by `rowEffect` at the appropriate cursor offset. -/
theorem outerFold_char (flt : ℕ → List ℕ) (prop : ℕ → ℕ → ℕ → List ℚ) (dd : ℕ) :
    ∀ (b a : ℕ) (A : List (List ℚ)) (r : ℕ),
      (((List.range' a b).foldl (rowEffect flt prop dd) (A, r)).2
          = r + dd * (((List.range' a b).map (fun q => (flt q).length)).sum))
      ∧ (((List.range' a b).foldl (rowEffect flt prop dd) (A, r)).1.length = A.length)
      ∧ (∀ m, ¬(a ≤ m ∧ m < a + b) →
          ((List.range' a b).foldl (rowEffect flt prop dd) (A, r)).1.getD m []
            = A.getD m [])
      ∧ (∀ m, a ≤ m → m < a + b →
          ((List.range' a b).foldl (rowEffect flt prop dd) (A, r)).1.getD m []
            = match (flt m).getLast? with
              | none => A.getD m []
              | some jl =>
                if m < A.length then
                  prop m jl (r + dd * ((((List.range' a (m - a)).map (fun q => (flt q).length)).sum)
                    + ((flt m).length - 1)))
                else A.getD m []) := by
  intro b
  induction b with
  | zero =>
    intro a A r
    refine ⟨by simp, rfl, fun m _ => rfl, fun m h1 h2 => absurd h2 (by omega)⟩
  | succ k ih =>
    intro a A r
    rw [List.range'_succ, List.foldl_cons]
    rcases hLa : (flt a).getLast? with _ | jla
    · have hfa : flt a = [] := List.getLast?_eq_none_iff.mp hLa
      have hstep0 : rowEffect flt prop dd (A, r) a = (A, r + dd * (flt a).length) := by
        unfold rowEffect
        rw [hLa]
      rw [hstep0]
      obtain ⟨ih1, ih2, ih3, ih4⟩ := ih (a + 1) A (r + dd * (flt a).length)
      refine ⟨?_, ih2, ?_, ?_⟩
      · rw [ih1, List.map_cons, List.sum_cons]
        ring
      · intro m hm
        exact ih3 m (by omega)
      · intro m hm1 hm2
        by_cases hma : m = a
        · rw [hma, ih3 a (by omega), hLa]
        · rw [ih4 m (by omega) (by omega)]
          rcases hLm : (flt m).getLast? with _ | jlm
          · rfl
          · have harith : r + dd * (flt a).length
                + dd * ((((List.range' (a + 1) (m - (a + 1))).map (fun q => (flt q).length)).sum)
                  + ((flt m).length - 1))
              = r + dd * ((((List.range' a (m - a)).map (fun q => (flt q).length)).sum)
                  + ((flt m).length - 1)) := by
              have hms : m - a = (m - (a + 1)) + 1 := by omega
              rw [hms, List.range'_succ, List.map_cons, List.sum_cons]
              ring
            rw [harith]
    · have hstep1 : rowEffect flt prop dd (A, r) a
          = (A.set a (prop a jla (r + dd * ((flt a).length - 1))), r + dd * (flt a).length) := by
        unfold rowEffect
        rw [hLa]
      rw [hstep1]
      obtain ⟨ih1, ih2, ih3, ih4⟩ :=
        ih (a + 1) (A.set a (prop a jla (r + dd * ((flt a).length - 1))))
          (r + dd * (flt a).length)
      refine ⟨?_, ?_, ?_, ?_⟩
      · rw [ih1, List.map_cons, List.sum_cons]
        ring
      · rw [ih2, List.length_set]
      · intro m hm
        rw [ih3 m (by omega), getD_set_ne _ _ _ _ _ (by omega)]
      · intro m hm1 hm2
        by_cases hma : m = a
        · rw [hma, ih3 a (by omega)]
          simp only [hLa]
          by_cases hml : a < A.length
          · rw [getD_set_self _ _ _ _ hml, if_pos hml]
            congr 1
            have h0 : a - a = 0 := by omega
            rw [h0]
            simp
          · rw [getD_set_of_length_le _ _ _ _ _ (by omega), if_neg hml]
        · rw [ih4 m (by omega) (by omega)]
          rcases hLm : (flt m).getLast? with _ | jlm
          · rw [getD_set_ne _ _ _ _ _ (by omega)]
          · dsimp only
            rw [List.length_set]
            by_cases hml : m < A.length
            · rw [if_pos hml, if_pos hml]
              congr 1
              have hms : m - a = (m - (a + 1)) + 1 := by omega
              rw [hms, List.range'_succ, List.map_cons, List.sum_cons]
              ring
            · rw [if_neg hml, if_neg hml, getD_set_ne _ _ _ _ _ (by omega)]

/-- Characterization of the `argmax` scan: after processing the first `m`
entries the kept index is below `m`, dominates all of them, and strictly
dominates everything before itself (first occurrence). -/
theorem argmax_fold_char (l : List ℚ) :
    ∀ (m bm : ℕ), 0 < m →
      bm = (List.range m).foldl (fun b i => if l.getD i 0 > l.getD b 0 then i else b) 0 →
      bm < m ∧ (∀ j < m, l.getD j 0 ≤ l.getD bm 0) ∧ ∀ j < bm, l.getD j 0 < l.getD bm 0 := by
  intro m
  induction m with
  | zero => intro bm h; omega
  | succ k ih =>
    intro bm hpos hbm
    have hsplit : (List.range (k + 1)).foldl (fun b i => if l.getD i 0 > l.getD b 0 then i else b) 0
        = if l.getD k 0
              > l.getD ((List.range k).foldl (fun b i => if l.getD i 0 > l.getD b 0 then i else b) 0) 0
          then k
          else (List.range k).foldl (fun b i => if l.getD i 0 > l.getD b 0 then i else b) 0 := by
      rw [List.range_succ, List.foldl_append, List.foldl_cons, List.foldl_nil]
    rcases Nat.eq_zero_or_pos k with hk0 | hk
    · subst hk0
      have hbm0 : bm = 0 := by
        rw [hbm, hsplit]
        simp only [List.range_zero, List.foldl_nil]
        by_cases hc : l.getD 0 0 > l.getD 0 0
        · rw [if_pos hc]
        · rw [if_neg hc]
      subst hbm0
      refine ⟨by omega, ?_, by omega⟩
      intro j hj
      have hj0 : j = 0 := by omega
      subst hj0
      exact le_refl _
    · obtain ⟨h1, h2, h3⟩ :=
        ih ((List.range k).foldl (fun b i => if l.getD i 0 > l.getD b 0 then i else b) 0) hk rfl
      rw [hsplit] at hbm
      by_cases hgt : l.getD k 0
          > l.getD ((List.range k).foldl (fun b i => if l.getD i 0 > l.getD b 0 then i else b) 0) 0
      · rw [if_pos hgt] at hbm
        subst hbm
        refine ⟨by omega, ?_, ?_⟩
        · intro j hj
          rcases Nat.lt_succ_iff_lt_or_eq.mp hj with hj' | hj'
          · exact le_of_lt (lt_of_le_of_lt (h2 j hj') hgt)
          · subst hj'; exact le_refl _
        · intro j hj
          exact lt_of_le_of_lt (h2 j hj) hgt
      · rw [if_neg hgt] at hbm
        subst hbm
        refine ⟨by omega, ?_, h3⟩
        intro j hj
        rcases Nat.lt_succ_iff_lt_or_eq.mp hj with hj' | hj'
        · exact h2 j hj'
        · subst hj'; exact not_lt.mp hgt

theorem argmaxIdx_lt_length (l : List ℚ) (h : l ≠ []) : argmaxIdx l < l.length :=
  (argmax_fold_char l l.length (argmaxIdx l) (List.length_pos.mpr h) rfl).1

theorem argmaxIdx_le (l : List ℚ) : ∀ j < l.length, l.getD j 0 ≤ l.getD (argmaxIdx l) 0 := by
  intro j hj
  have hne : l ≠ [] := by
    intro hnil
    subst hnil
    simp at hj
  exact (argmax_fold_char l l.length (argmaxIdx l) (List.length_pos.mpr hne) rfl).2.1 j hj

theorem argmaxIdx_first (l : List ℚ) : ∀ j < argmaxIdx l, l.getD j 0 < l.getD (argmaxIdx l) 0 := by
  intro j hj
  rcases eq_or_ne l [] with rfl | hne
  · simp [argmaxIdx] at hj
  · exact (argmax_fold_char l l.length (argmaxIdx l) (List.length_pos.mpr hne) rfl).2.2 j hj

theorem foldl_max_le (c : ℚ) : ∀ (l : List ℚ) (init : ℚ), init ≤ c → (∀ x ∈ l, x ≤ c) →
    l.foldl max init ≤ c := by
  intro l
  induction l with
  | nil => intro init h _; simpa using h
  | cons x t iht =>
    intro init hinit hall
    rw [List.foldl_cons]
    refine iht _ (max_le hinit (hall x (List.mem_cons_self x t)))
      (fun y hy => hall y (List.mem_cons_of_mem _ hy))

theorem init_le_foldl_max : ∀ (l : List ℚ) (init : ℚ), init ≤ l.foldl max init := by
  intro l
  induction l with
  | nil => intro init; simp
  | cons w t iht =>
    intro init
    rw [List.foldl_cons]
    exact le_trans (le_max_left _ _) (iht _)

theorem le_foldl_max : ∀ (l : List ℚ) (init : ℚ), ∀ x ∈ l, x ≤ l.foldl max init := by
  intro l
  induction l with
  | nil => intro init x hx; simp at hx
  | cons z t iht =>
    intro init x hx
    rw [List.foldl_cons]
    rcases List.mem_cons.mp hx with rfl | hx'
    · exact le_trans (le_max_right init x) (init_le_foldl_max t _)
    · exact iht _ x hx'

theorem getD_argmax_eq_maxOf (l : List ℚ) (h : l ≠ []) :
    l.getD (argmaxIdx l) 0 = maxOf l := by
  have hb := argmaxIdx_lt_length l h
  have hlen : 0 < l.length := List.length_pos.mpr h
  apply le_antisymm
  · have hmem : l.getD (argmaxIdx l) 0 ∈ l := by
      rw [List.getD_eq_getElem _ _ hb]
      exact List.getElem_mem hb
    exact le_foldl_max l _ _ hmem
  · apply foldl_max_le
    · exact argmaxIdx_le l 0 hlen
    · intro x hx
      obtain ⟨j, hj, rfl⟩ := List.mem_iff_getElem.mp hx
      rw [← List.getD_eq_getElem l 0 hj]
      exact argmaxIdx_le l j hj

theorem findIdx_eq_of_first {α : Type} (p : α → Bool) :
    ∀ (l : List α) (b : ℕ) (hb : b < l.length), p (l.get ⟨b, hb⟩) = true →
      (∀ j (hj : j < b), p (l.get ⟨j, by omega⟩) = false) → l.findIdx p = b := by
  intro l
  induction l with
  | nil => intro b hb; simp at hb
  | cons x t iht =>
    intro b hb htrue hfalse
    cases b with
    | zero =>
      rw [List.findIdx_cons]
      simp only [List.get] at htrue
      rw [htrue]
      rfl
    | succ b' =>
      have hx : p x = false := hfalse 0 (Nat.succ_pos b')
      rw [List.findIdx_cons, hx]
      have hb' : b' < t.length := by simpa using hb
      have := iht b' hb' (by simpa using htrue)
        (fun j hj => by simpa using hfalse (j + 1) (by omega))
      simp [this]

theorem specArgmax_eq_argmaxIdx (l : List ℚ) : specArgmax l = argmaxIdx l := by
  rcases eq_or_ne l [] with rfl | hne
  · rfl
  · have hb := argmaxIdx_lt_length l hne
    unfold specArgmax
    apply findIdx_eq_of_first _ l (argmaxIdx l) hb
    · have hget : l[argmaxIdx l] = maxOf l := by
        rw [← List.getD_eq_getElem l 0 hb]
        exact getD_argmax_eq_maxOf l hne
      simp [hget]
    · intro j hj
      have hlt := argmaxIdx_first l j hj
      rw [getD_argmax_eq_maxOf l hne] at hlt
      have hjl : j < l.length := by omega
      have hgj : l.get ⟨j, by omega⟩ = l.getD j 0 := by
        rw [List.getD_eq_getElem _ _ hjl]
        rfl
      rw [hgj]
      simp only [decide_eq_false_iff_not]
      exact ne_of_lt hlt

theorem getD_map_range {α : Type} (g : ℕ → α) (n i : ℕ) (d : α) :
    ((List.range n).map g).getD i d = if i < n then g i else d := by
  by_cases h : i < n
  · rw [if_pos h, List.getD_eq_getElem _ _ (by simpa using h)]
    simp
  · rw [if_neg h, List.getD_eq_default]
    simpa using h

/-- The candidate double loop of `Firefly.step` is the fold of `rowEffect`
over the row indices, with the brighter-neighbor filter and the
distance-decayed proposal. -/
theorem step_inner_char (c : Cfg) (expO : ℚ → ℚ) (u : ℕ → ℚ) (s : FAState) :
    ((List.range c.n).foldl (fun (acc : List (List ℚ) × ℕ) i =>
      (List.range c.n).foldl (fun (acc2 : List (List ℚ) × ℕ) j =>
        if s.I.getD j 0 > s.I.getD i 0 then
          (acc2.1.set i (move_towards c u acc2.2 (s.X.getD i []) (s.X.getD j [])
            (c.beta0 * expO (-(c.gamma * sqnorm (vsub (s.X.getD i []) (s.X.getD j [])))))),
           acc2.2 + c.d)
        else acc2) acc) (s.X, s.rngPos))
    = ((List.range c.n).foldl (rowEffect (fun i => brighterSet s.I c.n i)
        (fun i jl r => move_towards c u r (s.X.getD i []) (s.X.getD jl [])
          (c.beta0 * expO (-(c.gamma * sqnorm (vsub (s.X.getD i []) (s.X.getD jl [])))))) c.d)
        (s.X, s.rngPos)) := by
  have hfun : (fun (acc : List (List ℚ) × ℕ) i =>
      (List.range c.n).foldl (fun (acc2 : List (List ℚ) × ℕ) j =>
        if s.I.getD j 0 > s.I.getD i 0 then
          (acc2.1.set i (move_towards c u acc2.2 (s.X.getD i []) (s.X.getD j [])
            (c.beta0 * expO (-(c.gamma * sqnorm (vsub (s.X.getD i []) (s.X.getD j [])))))),
           acc2.2 + c.d)
        else acc2) acc)
      = (rowEffect (fun i => brighterSet s.I c.n i)
          (fun i jl r => move_towards c u r (s.X.getD i []) (s.X.getD jl [])
            (c.beta0 * expO (-(c.gamma * sqnorm (vsub (s.X.getD i []) (s.X.getD jl [])))))) c.d) := by
    funext acc i
    obtain ⟨A, r⟩ := acc
    exact @innerFold_char (fun j => s.I.getD j 0 > s.I.getD i 0) (fun j => inferInstance)
      (fun j off => move_towards c u off (s.X.getD i []) (s.X.getD j [])
        (c.beta0 * expO (-(c.gamma * sqnorm (vsub (s.X.getD i []) (s.X.getD j []))))))
      i c.d (List.range c.n) A r
  rw [hfun]

/-- The acceptance loop over one array equals the pointwise conditional
update. -/
theorem foldSet_eq_mapRange {α : Type} (cond : ℕ → Prop) [DecidablePred cond]
    (g : ℕ → α) (d : α) (n : ℕ) (L : List α) (hL : L.length = n) :
    (List.range n).foldl (fun l i => if cond i then l.set i (g i) else l) L
      = (List.range n).map (fun i => if cond i then g i else L.getD i d) := by
  obtain ⟨hlen, hget⟩ := foldSet_char cond g d n 0 L
  rw [List.range_eq_range'] at *
  apply eq_of_getD d
  · rw [hlen, hL, List.length_map, List.length_range']
  · intro m
    rw [hget m]
    rw [← List.range_eq_range', getD_map_range]
    by_cases hm : m < n
    · rw [if_pos hm]
      by_cases hc : cond m
      · rw [if_pos ⟨by omega, by omega, hc, by omega⟩, if_pos hc]
      · rw [if_neg (by tauto), if_neg hc]
    · rw [if_neg hm, if_neg (by rintro ⟨h1, h2, h3⟩; omega)]
      rw [List.getD_eq_default]
      omega

theorem getD_map_rangeQ {α : Type} (g : ℕ → α) (n i : ℕ) (d : α) :
    ((List.range' 0 n).map g).getD i d = if i < n then g i else d := by
  rw [← List.range_eq_range']
  exact getD_map_range g n i d

/-- The candidate matrix the double loop produces is exactly the spec's
per-firefly candidate list. -/
theorem step_cand_char (c : Cfg) (expO : ℚ → ℚ) (u : ℕ → ℚ) (s : FAState)
    (hX : s.X.length = c.n) :
    ((List.range c.n).foldl (rowEffect (fun i => brighterSet s.I c.n i)
      (fun i jl r => move_towards c u r (s.X.getD i []) (s.X.getD jl [])
        (c.beta0 * expO (-(c.gamma * sqnorm (vsub (s.X.getD i []) (s.X.getD jl [])))))) c.d)
      (s.X, s.rngPos)).1
    = (List.range c.n).map (candSpec c expO u s.X s.I s.rngPos) := by
  obtain ⟨o1, o2, o3, o4⟩ := outerFold_char (fun i => brighterSet s.I c.n i)
    (fun i jl r => move_towards c u r (s.X.getD i []) (s.X.getD jl [])
      (c.beta0 * expO (-(c.gamma * sqnorm (vsub (s.X.getD i []) (s.X.getD jl [])))))) c.d
    c.n 0 s.X s.rngPos
  rw [List.range_eq_range' c.n]
  apply eq_of_getD ([] : List ℚ)
  · rw [o2, hX, List.length_map, List.length_range']
  · intro m
    rw [getD_map_rangeQ]
    by_cases hm : m < c.n
    · rw [if_pos hm, o4 m (by omega) (by omega)]
      rcases hLm : (brighterSet s.I c.n m).getLast? with _ | jl
      · simp only [candSpec, hLm]
      · simp only [candSpec, hLm]
        rw [if_pos (show m < s.X.length by omega)]
        have hpos : 0 < (brighterSet s.I c.n m).length := by
          rcases hbs : brighterSet s.I c.n m with _ | ⟨x, t⟩
          · rw [hbs] at hLm
            simp at hLm
          · simp
        have hdt : drawsThrough s.I c.n m
            = ((List.range m).map (fun q => (brighterSet s.I c.n q).length)).sum
              + (brighterSet s.I c.n m).length := by
          unfold drawsThrough
          rw [List.range_succ, List.map_append, List.sum_append]
          simp
        have hS : (((List.range' 0 (m - 0)).map (fun q => (brighterSet s.I c.n q).length)).sum
              + ((brighterSet s.I c.n m).length - 1))
            = drawsThrough s.I c.n m - 1 := by
          rw [hdt, Nat.sub_zero, ← List.range_eq_range']
          omega
        rw [hS]
        simp only [move_towards]
    · rw [if_neg hm, o3 m (by omega), List.getD_eq_default]
      omega

/-- One `Firefly.step` is exactly the spec-side step. -/
theorem stepFA_eq_stepSpec (c : Cfg) (expO : ℚ → ℚ) (f : List ℚ → ℚ) (u : ℕ → ℚ)
    (s : FAState) (hWF : WF c s) :
    stepFA c expO f u s = stepSpec c expO f u s := by
  obtain ⟨hX, hV, hI⟩ := hWF
  have hcand := step_cand_char c expO u s hX
  obtain ⟨o1, o2, o3, o4⟩ := outerFold_char (fun i => brighterSet s.I c.n i)
    (fun i jl r => move_towards c u r (s.X.getD i []) (s.X.getD jl [])
      (c.beta0 * expO (-(c.gamma * sqnorm (vsub (s.X.getD i []) (s.X.getD jl [])))))) c.d
    c.n 0 s.X s.rngPos
  have htot : ((List.range' 0 c.n).map (fun q => (brighterSet s.I c.n q).length)).sum
      = totalBrighterPairs s.I c.n := by
    rw [← List.range_eq_range']
    rfl
  dsimp only [stepFA, stepSpec]
  rw [step_inner_char c expO u s, hcand, foldTriple_split]
  simp only [FAState.mk.injEq]
  have h1 := foldSet_eq_mapRange (fun i =>
      (brightness c.minimize (((List.range c.n).map (candSpec c expO u s.X s.I s.rngPos)).map
        (clipRow c.bounds) |>.map f)).getD i 0 > s.I.getD i 0)
    (fun i => (((List.range c.n).map (candSpec c expO u s.X s.I s.rngPos)).map
      (clipRow c.bounds)).getD i []) ([] : List ℚ) c.n s.X hX
  have h2 := foldSet_eq_mapRange (fun i =>
      (brightness c.minimize (((List.range c.n).map (candSpec c expO u s.X s.I s.rngPos)).map
        (clipRow c.bounds) |>.map f)).getD i 0 > s.I.getD i 0)
    (fun i => ((((List.range c.n).map (candSpec c expO u s.X s.I s.rngPos)).map
      (clipRow c.bounds)).map f).getD i 0) (0 : ℚ) c.n s.values hV
  have h3 := foldSet_eq_mapRange (fun i =>
      (brightness c.minimize (((List.range c.n).map (candSpec c expO u s.X s.I s.rngPos)).map
        (clipRow c.bounds) |>.map f)).getD i 0 > s.I.getD i 0)
    (fun i => (brightness c.minimize ((((List.range c.n).map (candSpec c expO u s.X s.I
      s.rngPos)).map (clipRow c.bounds)).map f)).getD i 0) (0 : ℚ) c.n s.I hI
  refine ⟨h1, h2, h3, ?_, ?_⟩
  · rw [h3, specArgmax_eq_argmaxIdx]
  · rw [List.range_eq_range' c.n, o1, htot]

theorem getD_map_lt {α β : Type} (f : α → β) (l : List α) (i : ℕ) (d : α) (db : β)
    (h : i < l.length) : (l.map f).getD i db = f (l.getD i d) := by
  rw [List.getD_eq_getElem _ _ (by simpa using h), List.getD_eq_getElem _ _ h, List.getElem_map]

theorem getD_zipmap {α β γ : Type} (g : α × β → γ) (x : List α) (y : List β) (k : ℕ)
    (da : α) (db : β) (dc : γ) (hk : k < x.length) (hk2 : k < y.length) :
    ((x.zip y).map g).getD k dc = g (x.getD k da, y.getD k db) := by
  rw [List.getD_eq_getElem _ _ (by simp [List.length_zip]; omega)]
  rw [List.getElem_map, List.getElem_zip]
  rw [List.getD_eq_getElem _ _ hk, List.getD_eq_getElem _ _ hk2]

theorem clipRow_inBox (bounds : List (ℚ × ℚ)) (x : List ℚ)
    (hlo : ∀ p ∈ bounds, p.1 ≤ p.2) (hlen : bounds.length ≤ x.length) :
    inBox bounds (clipRow bounds x) := by
  have hclen : (clipRow bounds x).length = bounds.length := by
    unfold clipRow
    rw [List.length_map, List.length_zip]
    omega
  refine ⟨hclen, fun k hk => ?_⟩
  have hx : k < x.length := by omega
  have hmem : bounds.getD k (0, 0) ∈ bounds := by
    rw [List.getD_eq_getElem _ _ hk]
    exact List.getElem_mem hk
  have hpk := hlo _ hmem
  unfold clipRow
  rw [getD_zipmap _ _ _ _ 0 (0, 0) _ hx hk]
  constructor
  · exact le_min (le_max_right _ _) hpk
  · exact min_le_right _ _

theorem clipRow_of_inBox (bounds : List (ℚ × ℚ)) (x : List ℚ) (hx : inBox bounds x) :
    clipRow bounds x = x := by
  obtain ⟨hlen, hin⟩ := hx
  apply eq_of_getD (0 : ℚ)
  · unfold clipRow
    rw [List.length_map, List.length_zip]
    omega
  · intro k
    by_cases hk : k < bounds.length
    · unfold clipRow
      rw [getD_zipmap _ _ _ _ 0 (0, 0) _ (by omega) hk]
      obtain ⟨h1, h2⟩ := hin k hk
      rw [max_eq_left h1, min_eq_left h2]
    · rw [List.getD_eq_default _ _ (by unfold clipRow; rw [List.length_map, List.length_zip]; omega),
        List.getD_eq_default _ _ (by omega)]

theorem getD_mem {α : Type} (l : List α) (i : ℕ) (d : α) (h : i < l.length) : l.getD i d ∈ l := by
  rw [List.getD_eq_getElem _ _ h]
  exact List.getElem_mem h

/-- The invariant holds right after `_init_population` (construction), given a
well-shaped bounds array with ordered pairs and uniform draws in `[0, 1)`. -/
theorem init_FAInv (c : Cfg) (f : List ℚ → ℚ) (u : ℕ → ℚ)
    (hd : c.bounds.length = c.d) (hlo : ∀ p ∈ c.bounds, p.1 ≤ p.2)
    (hu : ∀ m, 0 ≤ u m ∧ u m < 1) :
    FAInv c f (init_population c f u) := by
  refine ⟨⟨?_, ?_, ?_⟩, ?_, rfl, rfl, rfl⟩
  · dsimp only [init_population]
    rw [List.length_map, List.length_range]
  · dsimp only [init_population]
    rw [List.length_map, List.length_map, List.length_range]
  · dsimp only [init_population]
    unfold brightness
    split
    · rw [List.length_map, List.length_map, List.length_map, List.length_range]
    · rw [List.length_map, List.length_map, List.length_range]
  · intro x hx
    dsimp only [init_population] at hx
    obtain ⟨i, hi, rfl⟩ := List.mem_map.mp hx
    refine ⟨by rw [List.length_map, List.length_range, hd], fun k hk => ?_⟩
    have hkd : k < c.d := by omega
    rw [getD_map_range, if_pos hkd]
    have hpk := hlo _ (getD_mem c.bounds k (0, 0) hk)
    obtain ⟨hu0, hu1⟩ := hu (i * c.d + k)
    constructor
    · have := mul_nonneg (sub_nonneg.mpr hpk) hu0
      linarith
    · have := mul_le_of_le_one_right (sub_nonneg.mpr hpk) (le_of_lt hu1)
      linarith

/-- One step preserves the run-time invariant. -/
theorem step_FAInv (c : Cfg) (expO : ℚ → ℚ) (f : List ℚ → ℚ) (u : ℕ → ℚ) (s : FAState)
    (hd : c.bounds.length = c.d) (hlo : ∀ p ∈ c.bounds, p.1 ≤ p.2)
    (hInv : FAInv c f s) : FAInv c f (stepFA c expO f u s) := by
  obtain ⟨⟨hX, hV, hI⟩, hbox, hvf, hIb, hbest⟩ := hInv
  rw [stepFA_eq_stepSpec c expO f u s ⟨hX, hV, hI⟩]
  dsimp only [stepSpec]
  have hXclen : (((List.range c.n).map (candSpec c expO u s.X s.I s.rngPos)).map
      (clipRow c.bounds)).length = c.n := by
    rw [List.length_map, List.length_map, List.length_range]
  have hXcrows : ∀ x ∈ ((List.range c.n).map (candSpec c expO u s.X s.I s.rngPos)).map
      (clipRow c.bounds), inBox c.bounds x := by
    intro x hx
    obtain ⟨y, hy, rfl⟩ := List.mem_map.mp hx
    obtain ⟨i, hi, rfl⟩ := List.mem_map.mp hy
    have hin : i < c.n := List.mem_range.mp hi
    rcases hL : (brighterSet s.I c.n i).getLast? with _ | jl
    · simp only [candSpec, hL]
      apply clipRow_inBox _ _ hlo
      rw [(hbox (s.X.getD i []) (getD_mem s.X i [] (by omega))).1]
    · simp only [candSpec, hL]
      apply clipRow_inBox _ _ hlo
      rw [List.length_map, List.length_range]
      omega
  refine ⟨⟨?_, ?_, ?_⟩, ?_, ?_, ?_, ?_⟩
  · dsimp only
    rw [List.length_map, List.length_range]
  · dsimp only
    rw [List.length_map, List.length_range]
  · dsimp only
    rw [List.length_map, List.length_range]
  · dsimp only
    intro x hx
    obtain ⟨i, hi, rfl⟩ := List.mem_map.mp hx
    have hin : i < c.n := List.mem_range.mp hi
    by_cases hc : (brightness c.minimize ((((List.range c.n).map
        (candSpec c expO u s.X s.I s.rngPos)).map (clipRow c.bounds)).map f)).getD i 0
        > s.I.getD i 0
    · rw [if_pos hc]
      exact hXcrows _ (getD_mem _ i [] (by omega))
    · rw [if_neg hc]
      exact hbox _ (getD_mem s.X i [] (by omega))
  · dsimp only
    apply eq_of_getD (0 : ℚ)
    · rw [List.length_map, List.length_range, List.length_map, List.length_map,
        List.length_range]
    · intro i
      rw [getD_map_range]
      by_cases hin : i < c.n
      · rw [if_pos hin]
        conv_rhs => rw [getD_map_lt f _ i [] 0
            (by rw [List.length_map, List.length_range]; omega),
          getD_map_range, if_pos hin, apply_ite f]
        by_cases hc : (brightness c.minimize ((((List.range c.n).map
            (candSpec c expO u s.X s.I s.rngPos)).map (clipRow c.bounds)).map f)).getD i 0
            > s.I.getD i 0
        · rw [if_pos hc, if_pos hc, getD_map_lt f _ i [] 0 (by omega)]
        · rw [if_neg hc, if_neg hc, hvf, getD_map_lt f s.X i [] 0 (by omega)]
      · rw [if_neg hin, List.getD_eq_default _ _ (by
          rw [List.length_map, List.length_map, List.length_range]
          omega)]
  · dsimp only
    rcases hmin : c.minimize with _ | _
    · simp only [hmin, brightness, Bool.false_eq_true, if_false]
      have hIv : s.I = s.values := by
        rw [hIb, hmin]
        simp [brightness]
      rw [hIv]
    · simp only [hmin, brightness, if_true]
      apply eq_of_getD (0 : ℚ)
      · rw [List.length_map, List.length_range, List.length_map, List.length_map,
          List.length_range]
      · intro i
        rw [getD_map_neg, getD_map_range, getD_map_range]
        by_cases hin : i < c.n
        · rw [if_pos hin, if_pos hin, apply_ite Neg.neg]
          by_cases hc : ((((List.range c.n).map (candSpec c expO u s.X s.I s.rngPos)).map
              (clipRow c.bounds)).map f |>.map (fun v => -v)).getD i 0 > s.I.getD i 0
          · rw [if_pos hc, if_pos hc, getD_map_neg]
          · rw [if_neg hc, if_neg hc, hIb, hmin]
            simp only [brightness, if_true]
            rw [getD_map_neg]
        · rw [if_neg hin, if_neg hin]
          simp
  · dsimp only
    exact specArgmax_eq_argmaxIdx _

theorem foldSet_getD_ge (cond : ℕ → Prop) [DecidablePred cond] (newv : ℕ → ℚ) (L : List ℚ)
    (n : ℕ) (hmono : ∀ i, cond i → L.getD i 0 ≤ newv i) (i : ℕ) :
    L.getD i 0 ≤ ((List.range n).foldl (fun l j => if cond j then l.set j (newv j) else l)
      L).getD i 0 := by
  rw [List.range_eq_range' n]
  obtain ⟨hlen, hget⟩ := foldSet_char cond newv 0 n 0 L
  rw [hget i]
  by_cases h : 0 ≤ i ∧ i < 0 + n ∧ cond i ∧ i < L.length
  · rw [if_pos h]
    exact hmono i h.2.2.1
  · rw [if_neg h]

/-- Per-firefly brightness never regresses across one step: entry `i` of `I`
is only replaced when the candidate's brightness strictly exceeds it. -/
theorem stepFA_I_mono (c : Cfg) (expO : ℚ → ℚ) (f : List ℚ → ℚ) (u : ℕ → ℚ)
    (s : FAState) (i : ℕ) :
    s.I.getD i 0 ≤ (stepFA c expO f u s).I.getD i 0 := by
  dsimp only [stepFA]
  rw [foldTriple_split]
  exact foldSet_getD_ge _ _ s.I c.n (fun j hj => le_of_lt hj) i

/-- The step's random cursor advances by exactly `d` draws per ordered
brighter pair. -/
theorem stepFA_rngPos (c : Cfg) (expO : ℚ → ℚ) (f : List ℚ → ℚ) (u : ℕ → ℚ) (s : FAState) :
    (stepFA c expO f u s).rngPos = s.rngPos + c.d * totalBrighterPairs s.I c.n := by
  dsimp only [stepFA]
  rw [step_inner_char c expO u s]
  obtain ⟨o1, _, _, _⟩ := outerFold_char (fun i => brighterSet s.I c.n i)
    (fun i jl r => move_towards c u r (s.X.getD i []) (s.X.getD jl [])
      (c.beta0 * expO (-(c.gamma * sqnorm (vsub (s.X.getD i []) (s.X.getD jl [])))))) c.d
    c.n 0 s.X s.rngPos
  rw [List.range_eq_range' c.n, o1]
  congr 1
  rw [← List.range_eq_range']
  rfl

/-- When no firefly has a strictly brighter neighbor, the step changes
nothing: no candidate is proposed, the re-evaluation reproduces the same
values, every acceptance test fails, and the cursor does not move. -/
theorem stepFA_stationary (c : Cfg) (expO : ℚ → ℚ) (f : List ℚ → ℚ) (u : ℕ → ℚ)
    (s : FAState) (hInv : FAInv c f s) (h0 : totalBrighterPairs s.I c.n = 0) :
    stepFA c expO f u s = s := by
  obtain ⟨⟨hX, hV, hI⟩, hbox, hvf, hIb, hbest⟩ := hInv
  rw [stepFA_eq_stepSpec c expO f u s ⟨hX, hV, hI⟩]
  unfold totalBrighterPairs at h0
  have hempty : ∀ i < c.n, brighterSet s.I c.n i = [] := by
    intro i hi
    have hz := List.sum_eq_zero_iff.mp h0
    exact List.length_eq_zero.mp (hz _ (List.mem_map.mpr ⟨i, List.mem_range.mpr hi, rfl⟩))
  have hcand : ∀ i < c.n, candSpec c expO u s.X s.I s.rngPos i = s.X.getD i [] := by
    intro i hi
    simp only [candSpec, hempty i hi, List.getLast?_nil]
  have hXc : ((List.range c.n).map (candSpec c expO u s.X s.I s.rngPos)).map (clipRow c.bounds)
      = (List.range c.n).map (fun i => s.X.getD i []) := by
    rw [List.map_map]
    apply List.map_congr_left
    intro i hi
    have hin : i < c.n := List.mem_range.mp hi
    show clipRow c.bounds (candSpec c expO u s.X s.I s.rngPos i) = s.X.getD i []
    rw [hcand i hin]
    exact clipRow_of_inBox _ _ (hbox _ (getD_mem s.X i [] (by omega)))
  have hvals : ((List.range c.n).map (fun i => s.X.getD i [])).map f
      = (List.range c.n).map (fun i => s.values.getD i 0) := by
    rw [List.map_map]
    apply List.map_congr_left
    intro i hi
    have hin : i < c.n := List.mem_range.mp hi
    show f (s.X.getD i []) = s.values.getD i 0
    rw [hvf, getD_map_lt f s.X i [] 0 (by omega)]
  have hInew : brightness c.minimize ((List.range c.n).map (fun i => s.values.getD i 0))
      = (List.range c.n).map (fun i => s.I.getD i 0) := by
    rcases hmin : c.minimize with _ | _
    · simp only [brightness, hmin, Bool.false_eq_true, if_false]
      apply List.map_congr_left
      intro i hi
      rw [hIb, hmin]
      simp [brightness]
    · simp only [brightness, hmin, if_true]
      rw [List.map_map]
      apply List.map_congr_left
      intro i hi
      show -(s.values.getD i 0) = s.I.getD i 0
      rw [hIb, hmin]
      simp only [brightness, if_true]
      rw [getD_map_neg]
  dsimp only [stepSpec]
  rw [hXc, hvals, hInew]
  have hXf : (List.range c.n).map (fun i =>
        if ((List.range c.n).map (fun q => s.I.getD q 0)).getD i 0 > s.I.getD i 0
        then ((List.range c.n).map (fun q => s.X.getD q [])).getD i [] else s.X.getD i [])
      = s.X := by
    apply eq_of_getD ([] : List ℚ)
    · rw [List.length_map, List.length_range, hX]
    · intro i
      rw [getD_map_range]
      by_cases hin : i < c.n
      · rw [if_pos hin, getD_map_range, if_pos hin,
          if_neg (by exact lt_irrefl (s.I.getD i 0))]
      · rw [if_neg hin, List.getD_eq_default _ _ (by omega)]
  have hVf : (List.range c.n).map (fun i =>
        if ((List.range c.n).map (fun q => s.I.getD q 0)).getD i 0 > s.I.getD i 0
        then ((List.range c.n).map (fun q => s.values.getD q 0)).getD i 0 else s.values.getD i 0)
      = s.values := by
    apply eq_of_getD (0 : ℚ)
    · rw [List.length_map, List.length_range, hV]
    · intro i
      rw [getD_map_range]
      by_cases hin : i < c.n
      · rw [if_pos hin, getD_map_range, if_pos hin,
          if_neg (by exact lt_irrefl (s.I.getD i 0))]
      · rw [if_neg hin, List.getD_eq_default _ _ (by omega)]
  have hIf : (List.range c.n).map (fun i =>
        if ((List.range c.n).map (fun q => s.I.getD q 0)).getD i 0 > s.I.getD i 0
        then ((List.range c.n).map (fun q => s.I.getD q 0)).getD i 0 else s.I.getD i 0)
      = s.I := by
    apply eq_of_getD (0 : ℚ)
    · rw [List.length_map, List.length_range, hI]
    · intro i
      rw [getD_map_range]
      by_cases hin : i < c.n
      · rw [if_pos hin, getD_map_range, if_pos hin,
          if_neg (by exact lt_irrefl (s.I.getD i 0))]
      · rw [if_neg hin, List.getD_eq_default _ _ (by omega)]
  conv_rhs => rw [show s = FAState.mk s.X s.values s.I s.best_idx s.rngPos from rfl]
  simp only [FAState.mk.injEq]
  refine ⟨hXf, hVf, hIf, ?_, ?_⟩
  · rw [hIf, specArgmax_eq_argmaxIdx, hbest]
  · unfold totalBrighterPairs
    rw [h0, Nat.mul_zero, Nat.add_zero]

/-- The best objective value never worsens across one step: it decreases (or
stays) when minimizing and increases (or stays) when maximizing. -/
theorem step_best_progress (c : Cfg) (expO : ℚ → ℚ) (f : List ℚ → ℚ) (u : ℕ → ℚ)
    (s : FAState) (hn : 0 < c.n) (hd : c.bounds.length = c.d)
    (hlo : ∀ p ∈ c.bounds, p.1 ≤ p.2) (hInv : FAInv c f s) :
    (if c.minimize then
       (stepFA c expO f u s).values.getD (stepFA c expO f u s).best_idx 0
         ≤ s.values.getD s.best_idx 0
     else s.values.getD s.best_idx 0
         ≤ (stepFA c expO f u s).values.getD (stepFA c expO f u s).best_idx 0) := by
  have hInv' := step_FAInv c expO f u s hd hlo hInv
  obtain ⟨⟨hX, hV, hI⟩, hbox, hvf, hIb, hbest⟩ := hInv
  obtain ⟨⟨hX', hV', hI'⟩, hbox', hvf', hIb', hbest'⟩ := hInv'
  have hb0 : s.best_idx < c.n := by
    have hne : s.I ≠ [] := by
      intro h
      rw [h] at hI
      simp at hI
      omega
    have := argmaxIdx_lt_length s.I hne
    rw [hbest]
    omega
  have hle : s.I.getD s.best_idx 0
      ≤ (stepFA c expO f u s).I.getD (stepFA c expO f u s).best_idx 0 := by
    refine le_trans (stepFA_I_mono c expO f u s s.best_idx) ?_
    rw [hbest']
    exact argmaxIdx_le _ s.best_idx (by rw [hI']; omega)
  rcases hmin : c.minimize with _ | _
  · simp only [hmin, Bool.false_eq_true, if_false]
    have h1 : s.values.getD s.best_idx 0 = s.I.getD s.best_idx 0 := by
      rw [hIb, hmin]
      simp [brightness]
    have h2 : (stepFA c expO f u s).values.getD (stepFA c expO f u s).best_idx 0
        = (stepFA c expO f u s).I.getD (stepFA c expO f u s).best_idx 0 := by
      rw [hIb', hmin]
      simp [brightness]
    rw [h1, h2]
    exact hle
  · simp only [hmin, if_true]
    have h1 : s.I.getD s.best_idx 0 = -(s.values.getD s.best_idx 0) := by
      rw [hIb, hmin]
      simp only [brightness, if_true]
      rw [getD_map_neg]
    have h2 : (stepFA c expO f u s).I.getD (stepFA c expO f u s).best_idx 0
        = -((stepFA c expO f u s).values.getD (stepFA c expO f u s).best_idx 0) := by
      rw [hIb', hmin]
      simp only [brightness, if_true]
      rw [getD_map_neg]
    rw [h1, h2] at hle
    linarith

/-- Along the run loop the per-iteration best values form a chain that never
worsens in the configured direction. -/
theorem runLoop_chain (c : Cfg) (expO : ℚ → ℚ) (f : List ℚ → ℚ) (u : ℕ → ℚ)
    (hd : c.bounds.length = c.d) (hlo : ∀ p ∈ c.bounds, p.1 ≤ p.2) (hn : 0 < c.n) :
    ∀ (k : ℕ) (s : FAState), FAInv c f s →
      List.Chain' (fun a b => if c.minimize then b ≤ a else a ≤ b)
        (s.values.getD s.best_idx 0 :: (runLoop c expO f u k s).2.1) := by
  intro k
  induction k with
  | zero =>
    intro s _
    simp [runLoop]
  | succ t iht =>
    intro s hInv
    have hstep := step_best_progress c expO f u s hn hd hlo hInv
    have hInv' := step_FAInv c expO f u s hd hlo hInv
    simp only [runLoop]
    rw [List.chain'_cons]
    exact ⟨hstep, iht (stepFA c expO f u s) hInv'⟩

theorem runLoop_len (c : Cfg) (expO : ℚ → ℚ) (f : List ℚ → ℚ) (u : ℕ → ℚ) :
    ∀ (k : ℕ) (s : FAState),
      (runLoop c expO f u k s).2.1.length = k ∧ (runLoop c expO f u k s).2.2.length = k := by
  intro k
  induction k with
  | zero => intro s; exact ⟨rfl, rfl⟩
  | succ t iht =>
    intro s
    simp only [runLoop]
    obtain ⟨h1, h2⟩ := iht (stepFA c expO f u s)
    exact ⟨by rw [List.length_cons, h1], by rw [List.length_cons, h2]⟩

theorem runLoop_fst (c : Cfg) (expO : ℚ → ℚ) (f : List ℚ → ℚ) (u : ℕ → ℚ) :
    ∀ (k : ℕ) (s : FAState), (runLoop c expO f u k s).1 = stepIter c expO f u k s := by
  intro k
  induction k with
  | zero => intro s; rfl
  | succ t iht =>
    intro s
    simp only [runLoop, stepIter]
    exact iht (stepFA c expO f u s)

theorem stepFA_WF (c : Cfg) (expO : ℚ → ℚ) (f : List ℚ → ℚ) (u : ℕ → ℚ) (s : FAState)
    (hWF : WF c s) : WF c (stepFA c expO f u s) := by
  obtain ⟨hX, hV, hI⟩ := hWF
  dsimp only [stepFA]
  rw [foldTriple_split]
  refine ⟨?_, ?_, ?_⟩
  · rw [List.range_eq_range' c.n]
    exact ((foldSet_char _ _ ([] : List ℚ) c.n 0 s.X).1).trans hX
  · rw [List.range_eq_range' c.n]
    exact ((foldSet_char _ _ (0 : ℚ) c.n 0 s.values).1).trans hV
  · rw [List.range_eq_range' c.n]
    exact ((foldSet_char _ _ (0 : ℚ) c.n 0 s.I).1).trans hI

/-- Every clipped candidate lies in the bounds box. -/
theorem candXc_box (c : Cfg) (expO : ℚ → ℚ) (u : ℕ → ℚ) (s : FAState)
    (hd : c.bounds.length = c.d) (hlo : ∀ p ∈ c.bounds, p.1 ≤ p.2)
    (hX : s.X.length = c.n) (hbox : ∀ x ∈ s.X, inBox c.bounds x) :
    ∀ x ∈ ((List.range c.n).map (candSpec c expO u s.X s.I s.rngPos)).map (clipRow c.bounds),
      inBox c.bounds x := by
  intro x hx
  obtain ⟨y, hy, rfl⟩ := List.mem_map.mp hx
  obtain ⟨i, hi, rfl⟩ := List.mem_map.mp hy
  have hin : i < c.n := List.mem_range.mp hi
  rcases hL : (brighterSet s.I c.n i).getLast? with _ | jl
  · simp only [candSpec, hL]
    apply clipRow_inBox _ _ hlo
    rw [(hbox (s.X.getD i []) (getD_mem s.X i [] (by omega))).1]
  · simp only [candSpec, hL]
    apply clipRow_inBox _ _ hlo
    rw [List.length_map, List.length_range]
    omega

/-- The step consults the objective only at clipped (in-box) candidates: two
objectives agreeing on the box produce the same step. -/
theorem stepFA_congr_f (c : Cfg) (expO : ℚ → ℚ) (u : ℕ → ℚ) (s : FAState)
    (f g : List ℚ → ℚ) (hd : c.bounds.length = c.d) (hlo : ∀ p ∈ c.bounds, p.1 ≤ p.2)
    (hWF : WF c s) (hbox : ∀ x ∈ s.X, inBox c.bounds x)
    (hfg : ∀ x, inBox c.bounds x → f x = g x) :
    stepFA c expO f u s = stepFA c expO g u s := by
  rw [stepFA_eq_stepSpec c expO f u s hWF, stepFA_eq_stepSpec c expO g u s hWF]
  have hmap : (((List.range c.n).map (candSpec c expO u s.X s.I s.rngPos)).map
        (clipRow c.bounds)).map f
      = (((List.range c.n).map (candSpec c expO u s.X s.I s.rngPos)).map
        (clipRow c.bounds)).map g :=
    List.map_congr_left (fun x hx => hfg x (candXc_box c expO u s hd hlo hWF.1 hbox x hx))
  dsimp only [stepSpec]
  rw [hmap]

theorem stepIter_FAInv (c : Cfg) (expO : ℚ → ℚ) (f : List ℚ → ℚ) (u : ℕ → ℚ)
    (hd : c.bounds.length = c.d) (hlo : ∀ p ∈ c.bounds, p.1 ≤ p.2) :
    ∀ (t : ℕ) (s : FAState), FAInv c f s → FAInv c f (stepIter c expO f u t s) := by
  intro t
  induction t with
  | zero => intro s h; exact h
  | succ k iht =>
    intro s h
    exact iht (stepFA c expO f u s) (step_FAInv c expO f u s hd hlo h)

theorem runLoop_congr_f (c : Cfg) (expO : ℚ → ℚ) (u : ℕ → ℚ) (f g : List ℚ → ℚ)
    (hd : c.bounds.length = c.d) (hlo : ∀ p ∈ c.bounds, p.1 ≤ p.2)
    (hfg : ∀ x, inBox c.bounds x → f x = g x) :
    ∀ (k : ℕ) (s : FAState), FAInv c f s →
      runLoop c expO f u k s = runLoop c expO g u k s := by
  intro k
  induction k with
  | zero => intro s _; rfl
  | succ t iht =>
    intro s hInv
    have hstep : stepFA c expO f u s = stepFA c expO g u s :=
      stepFA_congr_f c expO u s f g hd hlo hInv.1 hInv.2.1 hfg
    have hInv' : FAInv c f (stepFA c expO g u s) :=
      hstep ▸ step_FAInv c expO f u s hd hlo hInv
    simp only [runLoop]
    rw [hstep, iht (stepFA c expO g u s) hInv']

/-- Initialization consults the objective only at in-box points. -/
theorem init_congr_f (c : Cfg) (f g : List ℚ → ℚ) (u : ℕ → ℚ)
    (hd : c.bounds.length = c.d) (hlo : ∀ p ∈ c.bounds, p.1 ≤ p.2)
    (hu : ∀ m, 0 ≤ u m ∧ u m < 1) (hfg : ∀ x, inBox c.bounds x → f x = g x) :
    init_population c f u = init_population c g u := by
  have hbox0 := (init_FAInv c f u hd hlo hu).2.1
  dsimp only [init_population] at hbox0 ⊢
  rw [List.map_congr_left (fun x hx => hfg x (hbox0 x hx))]

/-- One spec-side step commutes with negating the objective and flipping the
direction flag: positions, brightness, best index and cursor coincide, and the
values are pointwise negated. -/
theorem stepSpec_neg_rel (c : Cfg) (expO : ℚ → ℚ) (f : List ℚ → ℚ) (u : ℕ → ℚ)
    (s s2 : FAState) (hmin : c.minimize = true)
    (hX2 : s2.X = s.X) (hI2 : s2.I = s.I) (hr2 : s2.rngPos = s.rngPos)
    (hv2 : s2.values = s.values.map (fun v => -v)) :
    (stepSpec { c with minimize := false } expO (fun x => -(f x)) u s2).X
        = (stepSpec c expO f u s).X
    ∧ (stepSpec { c with minimize := false } expO (fun x => -(f x)) u s2).I
        = (stepSpec c expO f u s).I
    ∧ (stepSpec { c with minimize := false } expO (fun x => -(f x)) u s2).best_idx
        = (stepSpec c expO f u s).best_idx
    ∧ (stepSpec { c with minimize := false } expO (fun x => -(f x)) u s2).rngPos
        = (stepSpec c expO f u s).rngPos
    ∧ (stepSpec { c with minimize := false } expO (fun x => -(f x)) u s2).values
        = (stepSpec c expO f u s).values.map (fun v => -v) := by
  dsimp only [stepSpec]
  rw [hX2, hI2, hr2, hv2]
  have hcs : candSpec { c with minimize := false } expO u s.X s.I s.rngPos
      = candSpec c expO u s.X s.I s.rngPos := rfl
  rw [hcs]
  have hg : (((List.range c.n).map (candSpec c expO u s.X s.I s.rngPos)).map
        (clipRow c.bounds)).map (fun x => -(f x))
      = ((((List.range c.n).map (candSpec c expO u s.X s.I s.rngPos)).map
        (clipRow c.bounds)).map f).map (fun v => -v) := by
    conv_rhs => rw [List.map_map]
    rfl
  rw [hg]
  simp only [brightness, hmin, if_true, Bool.false_eq_true, if_false]
  refine ⟨trivial, trivial, trivial, trivial, ?_⟩
  apply eq_of_getD (0 : ℚ)
  · rw [List.length_map, List.length_range, List.length_map, List.length_map,
      List.length_range]
  · intro i
    rw [getD_map_neg, getD_map_range, getD_map_range]
    by_cases hin : i < c.n
    · rw [if_pos hin, if_pos hin]
      rw [apply_ite Neg.neg]
      by_cases hc : (List.map (fun (v : ℚ) => -v) (List.map f (List.map (clipRow c.bounds)
          (List.map (candSpec c expO u s.X s.I s.rngPos) (List.range c.n))))).getD i 0
          > s.I.getD i 0
      · rw [if_pos hc, if_pos hc, getD_map_neg]
      · rw [if_neg hc, if_neg hc, getD_map_neg]
    · rw [if_neg hin, if_neg hin]
      simp

theorem stepFA_neg_rel (c : Cfg) (expO : ℚ → ℚ) (f : List ℚ → ℚ) (u : ℕ → ℚ)
    (s s2 : FAState) (hmin : c.minimize = true) (hWF : WF c s)
    (hX2 : s2.X = s.X) (hI2 : s2.I = s.I) (hr2 : s2.rngPos = s.rngPos)
    (hv2 : s2.values = s.values.map (fun v => -v)) :
    (stepFA { c with minimize := false } expO (fun x => -(f x)) u s2).X
        = (stepFA c expO f u s).X
    ∧ (stepFA { c with minimize := false } expO (fun x => -(f x)) u s2).I
        = (stepFA c expO f u s).I
    ∧ (stepFA { c with minimize := false } expO (fun x => -(f x)) u s2).best_idx
        = (stepFA c expO f u s).best_idx
    ∧ (stepFA { c with minimize := false } expO (fun x => -(f x)) u s2).rngPos
        = (stepFA c expO f u s).rngPos
    ∧ (stepFA { c with minimize := false } expO (fun x => -(f x)) u s2).values
        = (stepFA c expO f u s).values.map (fun v => -v) := by
  have hWF2 : WF { c with minimize := false } s2 := by
    refine ⟨?_, ?_, ?_⟩
    · rw [hX2]; exact hWF.1
    · rw [hv2, List.length_map]; exact hWF.2.1
    · rw [hI2]; exact hWF.2.2
  rw [stepFA_eq_stepSpec { c with minimize := false } expO (fun x => -(f x)) u s2 hWF2,
    stepFA_eq_stepSpec c expO f u s hWF]
  exact stepSpec_neg_rel c expO f u s s2 hmin hX2 hI2 hr2 hv2

theorem stepIter_neg_rel (c : Cfg) (expO : ℚ → ℚ) (f : List ℚ → ℚ) (u : ℕ → ℚ)
    (hmin : c.minimize = true) :
    ∀ (k : ℕ) (s s2 : FAState), WF c s →
      s2.X = s.X → s2.I = s.I → s2.rngPos = s.rngPos →
      s2.values = s.values.map (fun v => -v) →
      s2.best_idx = s.best_idx →
      (stepIter { c with minimize := false } expO (fun x => -(f x)) u k s2).X
          = (stepIter c expO f u k s).X
      ∧ (stepIter { c with minimize := false } expO (fun x => -(f x)) u k s2).I
          = (stepIter c expO f u k s).I
      ∧ (stepIter { c with minimize := false } expO (fun x => -(f x)) u k s2).best_idx
          = (stepIter c expO f u k s).best_idx
      ∧ (stepIter { c with minimize := false } expO (fun x => -(f x)) u k s2).rngPos
          = (stepIter c expO f u k s).rngPos
      ∧ (stepIter { c with minimize := false } expO (fun x => -(f x)) u k s2).values
          = (stepIter c expO f u k s).values.map (fun v => -v) := by
  intro k
  induction k with
  | zero =>
    intro s s2 _ h1 h2 h3 h4 h5
    exact ⟨h1, h2, h5, h3, h4⟩
  | succ t iht =>
    intro s s2 hWF h1 h2 h3 h4 h5
    obtain ⟨g1, g2, g3, g4, g5⟩ := stepFA_neg_rel c expO f u s s2 hmin hWF h1 h2 h3 h4
    exact iht (stepFA c expO f u s) (stepFA { c with minimize := false } expO
      (fun x => -(f x)) u s2) (stepFA_WF c expO f u s hWF) g1 g2 g4 g5 g3

theorem init_neg_rel (c : Cfg) (f : List ℚ → ℚ) (u : ℕ → ℚ) (hmin : c.minimize = true) :
    (init_population { c with minimize := false } (fun x => -(f x)) u).X
        = (init_population c f u).X
    ∧ (init_population { c with minimize := false } (fun x => -(f x)) u).I
        = (init_population c f u).I
    ∧ (init_population { c with minimize := false } (fun x => -(f x)) u).best_idx
        = (init_population c f u).best_idx
    ∧ (init_population { c with minimize := false } (fun x => -(f x)) u).rngPos
        = (init_population c f u).rngPos
    ∧ (init_population { c with minimize := false } (fun x => -(f x)) u).values
        = (init_population c f u).values.map (fun v => -v) := by
  dsimp only [init_population]
  have hvals : (List.map (fun x => -(f x)) ((List.range c.n).map (fun i =>
        (List.range c.d).map (fun k => (c.bounds.getD k (0, 0)).1 +
          ((c.bounds.getD k (0, 0)).2 - (c.bounds.getD k (0, 0)).1) * u (i * c.d + k)))))
      = (List.map f ((List.range c.n).map (fun i =>
        (List.range c.d).map (fun k => (c.bounds.getD k (0, 0)).1 +
          ((c.bounds.getD k (0, 0)).2 - (c.bounds.getD k (0, 0)).1)
            * u (i * c.d + k))))).map (fun v => -v) := by
    conv_rhs => rw [List.map_map]
    rfl
  rw [hvals]
  simp only [brightness, hmin, if_true, Bool.false_eq_true, if_false]
  exact ⟨trivial, trivial, trivial, trivial, trivial⟩

theorem mapExcept_ok {ε α β : Type} (f : α → Except ε β) (g : α → β)
    (hf : ∀ x, f x = .ok (g x)) : ∀ l : List α, mapExcept f l = .ok (l.map g) := by
  intro l
  induction l with
  | nil => rfl
  | cons x t iht =>
    simp only [mapExcept]
    rw [hf x, iht]
    rfl

theorem except_bind_error {ε α β : Type} (m : Except ε α) (k : α → Except ε β) (e : ε)
    (h : Bind.bind m k = Except.error e) :
    m = .error e ∨ ∃ a, m = .ok a ∧ k a = .error e := by
  rcases m with e' | a
  · left
    have h' : (Except.error e' : Except ε β) = .error e := h
    have : e' = e := by simpa using h'
    rw [this]
  · right
    exact ⟨a, rfl, h⟩

theorem mapExcept_error {ε α β : Type} (f : α → Except ε β) :
    ∀ (l : List α) (e : ε), mapExcept f l = .error e → ∃ x ∈ l, f x = .error e := by
  intro l
  induction l with
  | nil =>
    intro e h
    exact absurd h (by simp [mapExcept])
  | cons x t iht =>
    intro e h
    simp only [mapExcept] at h
    rcases except_bind_error _ _ _ h with hm | ⟨v, hv, hk⟩
    · exact ⟨x, List.mem_cons_self x t, hm⟩
    · rcases except_bind_error _ _ _ hk with hm2 | ⟨r, hr, hk2⟩
      · obtain ⟨y, hy, hfy⟩ := iht e hm2
        exact ⟨y, List.mem_cons_of_mem x hy, hfy⟩
      · exact absurd hk2 (by simp)

/-- With an objective that always returns (even a non-finite value), the step
completes without error: no finiteness check exists anywhere in `step`. -/
theorem stepE_ok_of_total {ε : Type} (c : Cfg) (expO : ℚ → ℚ)
    (f : List ℚ → Except ε FVal) (g : List ℚ → FVal) (hf : ∀ x, f x = .ok (g x))
    (u : ℕ → ℚ) (s : FAStateE) :
    ∃ s', stepE c expO f u s = .ok s' := by
  dsimp only [stepE]
  rw [mapExcept_ok f g hf]
  exact ⟨_, rfl⟩

/-- Any error the step surfaces is an exception raised by the objective,
passed through unchanged (no retry, no substitution, nothing swallowed). -/
theorem stepE_error {ε : Type} (c : Cfg) (expO : ℚ → ℚ) (f : List ℚ → Except ε FVal)
    (u : ℕ → ℚ) (s : FAStateE) (e : ε) (h : stepE c expO f u s = .error e) :
    ∃ x, f x = .error e := by
  dsimp only [stepE] at h
  rcases except_bind_error _ _ _ h with hm | ⟨vals, hm, hk⟩
  · obtain ⟨x, hx, hfx⟩ := mapExcept_error f _ e hm
    exact ⟨x, hfx⟩
  · exact absurd hk (by simp)

theorem runE_ok_of_total {ε : Type} (c : Cfg) (expO : ℚ → ℚ)
    (f : List ℚ → Except ε FVal) (g : List ℚ → FVal) (hf : ∀ x, f x = .ok (g x))
    (u : ℕ → ℚ) : ∀ (k : ℕ) (s : FAStateE), ∃ s', runE c expO f u k s = .ok s' := by
  intro k
  induction k with
  | zero => intro s; exact ⟨s, rfl⟩
  | succ t iht =>
    intro s
    obtain ⟨s1, hs1⟩ := stepE_ok_of_total c expO f g hf u s
    obtain ⟨s', hs'⟩ := iht s1
    refine ⟨s', ?_⟩
    simp only [runE]
    rw [hs1]
    exact hs'

theorem runE_error {ε : Type} (c : Cfg) (expO : ℚ → ℚ) (f : List ℚ → Except ε FVal)
    (u : ℕ → ℚ) : ∀ (k : ℕ) (s : FAStateE) (e : ε),
      runE c expO f u k s = .error e → ∃ x, f x = .error e := by
  intro k
  induction k with
  | zero =>
    intro s e h
    exact absurd h (by simp [runE])
  | succ t iht =>
    intro s e h
    simp only [runE] at h
    rcases except_bind_error _ _ _ h with hm | ⟨s1, hm, hk⟩
    · exact stepE_error c expO f u s e hm
    · exact iht s1 e hk

/-- `_init_population` succeeds exactly when no dimension's bounds are
inverted and the population is non-empty. -/
theorem init_populationE_ok_iff (c : Cfg) (f : List ℚ → ℚ) (u : ℕ → ℚ) :
    (init_populationE c f u).isOk = true
      ↔ (∀ p ∈ c.bounds, p.1 ≤ p.2) ∧ 0 < c.n := by
  unfold init_populationE
  by_cases hinv : ∃ p ∈ c.bounds, p.2 < p.1
  · rw [if_pos hinv]
    constructor
    · intro h
      exact absurd h (by decide)
    · rintro ⟨hord, _⟩
      obtain ⟨p, hp, hlt⟩ := hinv
      exact absurd hlt (not_lt.mpr (hord p hp))
  · rw [if_neg hinv]
    by_cases hn : c.n = 0
    · rw [if_pos hn]
      constructor
      · intro h
        exact absurd h (by decide)
      · rintro ⟨_, hpos⟩
        omega
    · rw [if_neg hn]
      constructor
      · intro _
        refine ⟨?_, by omega⟩
        intro p hp
        by_contra hlt
        exact hinv ⟨p, hp, not_le.mp hlt⟩
      · intro _
        rfl

/-- `init_populationE_ok_iff` specialized to a configuration built by
`__init__` from the dataclass and a resolved bounds list. -/
theorem init_populationE_mk_ok_iff (P : FAParams) (bs : List (ℚ × ℚ))
    (f : List ℚ → ℚ) (u : ℕ → ℚ) :
    (init_populationE (mkCfg P bs) f u).isOk = true
      ↔ (∀ p ∈ bs, p.1 ≤ p.2) ∧ 0 < P.n :=
  init_populationE_ok_iff (mkCfg P bs) f u

/-- `_init_population` either raises `ValueError` or returns the
`init_population` state. -/
theorem init_populationE_cases (c : Cfg) (f : List ℚ → ℚ) (u : ℕ → ℚ) :
    init_populationE c f u = .error .valueError
    ∨ init_populationE c f u = .ok (init_population c f u) := by
  unfold init_populationE
  by_cases h1 : ∃ p ∈ c.bounds, p.2 < p.1
  · left
    rw [if_pos h1]
  · rw [if_neg h1]
    by_cases h2 : c.n = 0
    · left
      rw [if_pos h2]
    · right
      rw [if_neg h2]

/-- With the shape assertion passed, `__init__` succeeds exactly when
`_init_population` does. -/
theorem fireflyInit_isOk (P : FAParams) (bs : List (ℚ × ℚ)) (f : List ℚ → ℚ)
    (u : ℕ → ℚ) (hlen : bs.length = P.d) :
    (fireflyInit P (some bs) f u).isOk = (init_populationE (mkCfg P bs) f u).isOk := by
  unfold fireflyInit
  dsimp only
  rw [if_pos hlen]
  rcases hm : init_populationE (mkCfg P bs) f u with e | s
  · rfl
  · rfl

/-- On the `bounds=None` path, `__init__` succeeds exactly when
`_init_population` does on the broadcast bounds. -/
theorem fireflyInit_none_isOk (P : FAParams) (f : List ℚ → ℚ) (u : ℕ → ℚ) :
    (fireflyInit P none f u).isOk
      = (init_populationE (mkCfg P (as_bounds P.lower P.upper P.d)) f u).isOk := by
  unfold fireflyInit
  dsimp only
  rcases hm : init_populationE (mkCfg P (as_bounds P.lower P.upper P.d)) f u with e | s
  · rfl
  · rfl

/-- A bounds list of the wrong length fails the `(d, 2)` shape assertion. -/
theorem fireflyInit_shape_error (P : FAParams) (bs : List (ℚ × ℚ)) (f : List ℚ → ℚ)
    (u : ℕ → ℚ) (hlen : bs.length ≠ P.d) :
    fireflyInit P (some bs) f u = .error .assertionError := by
  unfold fireflyInit
  dsimp only
  rw [if_neg hlen]

/-- An error of `_init_population` surfaces unchanged from `__init__`. -/
theorem fireflyInit_error_of_initE (P : FAParams) (bs : List (ℚ × ℚ))
    (f : List ℚ → ℚ) (u : ℕ → ℚ) (hlen : bs.length = P.d) (e : ConfigErr)
    (h : init_populationE (mkCfg P bs) f u = .error e) :
    fireflyInit P (some bs) f u = .error e := by
  unfold fireflyInit
  dsimp only
  rw [if_pos hlen, h]

/-!
The claims.
-/

/-- C1: One optimization step computes, for every firefly `i` taken in
increasing index order and for every `j` in increasing index order with
`brightness[j]` strictly greater than `brightness[i]`, a candidate position
`position[i] + beta0*exp(-gamma*r_ij^2)*(position[j] - position[i]) +
alpha*(U - 0.5)` with `U` a `d`-length vector of fresh uniform draws and
`position[i]` the position `i` held at the start of the step, each later
brighter `j` overwriting `i`'s earlier candidate; then clips every candidate
coordinate-wise into bounds, evaluates all `n` candidates, accepts candidate
`i` (replacing position, value and brightness together) iff its brightness
strictly exceeds the current one, and finally recomputes `best_idx` as the
first-occurrence arg-max of brightness — i.e. the translated `step` equals
the spec-side `stepSpec` on every well-formed state. -/
theorem c1_step_functional_correctness (c : Cfg) (expO : ℚ → ℚ) (f : List ℚ → ℚ)
    (u : ℕ → ℚ) (s : FAState) (hWF : WF c s) :
    stepFA c expO f u s = stepSpec c expO f u s :=
  stepFA_eq_stepSpec c expO f u s hWF

set_option maxRecDepth 8000 in
/-- Witness for C1 at a concrete two-firefly configuration. -/
theorem c1_witness :
    WF (mkCfg ⟨2, 1, 1/2, 1, 1, 1, true, 0, 1⟩ (as_bounds 0 1 1))
      (init_population (mkCfg ⟨2, 1, 1/2, 1, 1, 1, true, 0, 1⟩ (as_bounds 0 1 1))
        (fun x => sqnorm x) (fun m => 1 / (m + 2 : ℚ)))
    ∧ stepFA (mkCfg ⟨2, 1, 1/2, 1, 1, 1, true, 0, 1⟩ (as_bounds 0 1 1)) (fun _ => 1)
        (fun x => sqnorm x) (fun m => 1 / (m + 2 : ℚ))
        (init_population (mkCfg ⟨2, 1, 1/2, 1, 1, 1, true, 0, 1⟩ (as_bounds 0 1 1))
          (fun x => sqnorm x) (fun m => 1 / (m + 2 : ℚ)))
      = stepSpec (mkCfg ⟨2, 1, 1/2, 1, 1, 1, true, 0, 1⟩ (as_bounds 0 1 1)) (fun _ => 1)
        (fun x => sqnorm x) (fun m => 1 / (m + 2 : ℚ))
        (init_population (mkCfg ⟨2, 1, 1/2, 1, 1, 1, true, 0, 1⟩ (as_bounds 0 1 1))
          (fun x => sqnorm x) (fun m => 1 / (m + 2 : ℚ))) :=
  ⟨by with_unfolding_all decide,
   c1_step_functional_correctness _ _ _ _ _ (by with_unfolding_all decide)⟩

/-- C2: For every run whose per-dimension bounds satisfy lower ≤ upper (with
uniform draws in `[0,1)`), after initialization and after every number of
steps every coordinate of every firefly's position lies in its dimension's
interval; and the objective is never called outside the box — replacing the
objective by any function agreeing with it on the box leaves the entire
constructed run unchanged. -/
theorem c2_bounds_invariant (P : FAParams) (bs : List (ℚ × ℚ)) (expO : ℚ → ℚ)
    (f g : List ℚ → ℚ) (u : ℕ → ℚ) (t : ℕ) (track : Bool)
    (hlen : bs.length = P.d) (hord : ∀ p ∈ bs, p.1 ≤ p.2)
    (hu : ∀ m, 0 ≤ u m ∧ u m < 1)
    (hfg : ∀ x, inBox bs x → f x = g x) :
    (∀ x ∈ (stepIter (mkCfg P bs) expO f u t (init_population (mkCfg P bs) f u)).X,
        inBox bs x)
    ∧ constructAndRun P (some bs) expO f u track
        = constructAndRun P (some bs) expO g u track := by
  have hinv0 := init_FAInv (mkCfg P bs) f u hlen hord hu
  constructor
  · exact (stepIter_FAInv (mkCfg P bs) expO f u hlen hord t _ hinv0).2.1
  · have hinit : init_population (mkCfg P bs) f u = init_population (mkCfg P bs) g u :=
      init_congr_f (mkCfg P bs) f g u hlen hord hu hfg
    have hloop : runLoop (mkCfg P bs) expO f u (mkCfg P bs).iters
          (init_population (mkCfg P bs) g u)
        = runLoop (mkCfg P bs) expO g u (mkCfg P bs).iters
          (init_population (mkCfg P bs) g u) :=
      runLoop_congr_f (mkCfg P bs) expO u f g hlen hord hfg _ _ (hinit ▸ hinv0)
    have hrun : runFA (mkCfg P bs) expO f u track (init_population (mkCfg P bs) f u)
        = runFA (mkCfg P bs) expO g u track (init_population (mkCfg P bs) g u) := by
      unfold runFA
      rw [hinit, hloop]
    have hninv : ¬ ∃ p ∈ (mkCfg P bs).bounds, p.2 < p.1 := by
      rintro ⟨p, hp, hlt⟩
      exact absurd hlt (not_lt.mpr (hord p hp))
    unfold constructAndRun fireflyInit init_populationE
    dsimp only
    rw [if_pos hlen, if_pos hlen, if_neg hninv, if_neg hninv]
    by_cases hn : (mkCfg P bs).n = 0
    · rw [if_pos hn, if_pos hn]
    · rw [if_neg hn, if_neg hn]
      dsimp only
      rw [hrun]

/-- Witness for C2 at a concrete configuration. -/
theorem c2_witness :
    (∀ x ∈ (stepIter (mkCfg ⟨2, 1, 1/2, 1, 1, 1, true, 0, 1⟩ [(0, 1)]) (fun _ => 1)
        (fun x => sqnorm x) (fun _ => 1/2) 1
        (init_population (mkCfg ⟨2, 1, 1/2, 1, 1, 1, true, 0, 1⟩ [(0, 1)])
          (fun x => sqnorm x) (fun _ => 1/2))).X, inBox [(0, 1)] x)
    ∧ constructAndRun ⟨2, 1, 1/2, 1, 1, 1, true, 0, 1⟩ (some [(0, 1)]) (fun _ => 1)
        (fun x => sqnorm x) (fun _ => 1/2) true
      = constructAndRun ⟨2, 1, 1/2, 1, 1, 1, true, 0, 1⟩ (some [(0, 1)]) (fun _ => 1)
        (fun x => sqnorm x) (fun _ => 1/2) true :=
  c2_bounds_invariant ⟨2, 1, 1/2, 1, 1, 1, true, 0, 1⟩ [(0, 1)] (fun _ => 1)
    (fun x => sqnorm x) (fun x => sqnorm x) (fun _ => 1/2) 1 true (by decide)
    (by decide) (fun _ => by norm_num) (fun x _ => rfl)

/-- C3: For every firefly index `i` and every step, the brightness of firefly
`i` after the step is greater than or equal to its brightness before the step
(state is only replaced when the candidate's brightness strictly exceeds the
current one). -/
theorem c3_brightness_never_regresses (c : Cfg) (expO : ℚ → ℚ) (f : List ℚ → ℚ)
    (u : ℕ → ℚ) (s : FAState) (i : ℕ) :
    s.I.getD i 0 ≤ (stepFA c expO f u s).I.getD i 0 :=
  stepFA_I_mono c expO f u s i

/-- C4: For every run, the best-value history is monotonically non-worsening
under the configured direction: non-increasing when minimizing and
non-decreasing when maximizing. -/
theorem c4_history_monotone (P : FAParams) (bs : List (ℚ × ℚ)) (expO : ℚ → ℚ)
    (f : List ℚ → ℚ) (u : ℕ → ℚ) (track : Bool)
    (hn : 0 < P.n) (hlen : bs.length = P.d) (hord : ∀ p ∈ bs, p.1 ≤ p.2)
    (hu : ∀ m, 0 ≤ u m ∧ u m < 1) :
    List.Chain' (fun a b => if P.minimize then b ≤ a else a ≤ b)
      (runFA (mkCfg P bs) expO f u track
        (init_population (mkCfg P bs) f u)).history_best := by
  have hinv := init_FAInv (mkCfg P bs) f u hlen hord hu
  have hchain := runLoop_chain (mkCfg P bs) expO f u hlen hord hn (mkCfg P bs).iters
    (init_population (mkCfg P bs) f u) hinv
  exact hchain.tail

/-- Witness for C4 at a concrete minimizing run. -/
theorem c4_witness :
    List.Chain'
      (fun a b => if (⟨2, 1, 1/2, 1, 1, 2, true, 0, 1⟩ : FAParams).minimize
        then b ≤ a else a ≤ b)
      (runFA (mkCfg ⟨2, 1, 1/2, 1, 1, 2, true, 0, 1⟩ [(0, 1)]) (fun _ => 1)
        (fun x => sqnorm x) (fun _ => 1/2) true
        (init_population (mkCfg ⟨2, 1, 1/2, 1, 1, 2, true, 0, 1⟩ [(0, 1)])
          (fun x => sqnorm x) (fun _ => 1/2))).history_best :=
  c4_history_monotone ⟨2, 1, 1/2, 1, 1, 2, true, 0, 1⟩ [(0, 1)] (fun _ => 1)
    (fun x => sqnorm x) (fun _ => 1/2) true (by decide) (by decide) (by decide)
    (fun _ => by norm_num)

/-- C5: Two optimizers constructed from identical objective, bounds,
hyperparameters and a fixed seed (hence pointwise-identical draw streams and
oracles) and run the same way produce identical best positions, best values
and history sequences — the whole construct-and-run result coincides. -/
theorem c5_determinism (P : FAParams) (bs : Option (List (ℚ × ℚ)))
    (expO expO2 : ℚ → ℚ) (f f2 : List ℚ → ℚ) (u u2 : ℕ → ℚ) (track : Bool)
    (he : ∀ q, expO q = expO2 q) (hf : ∀ x, f x = f2 x) (hu : ∀ m, u m = u2 m) :
    constructAndRun P bs expO f u track = constructAndRun P bs expO2 f2 u2 track := by
  rw [funext he, funext hf, funext hu]

/-- Witness for C5. -/
theorem c5_witness :
    constructAndRun ⟨2, 1, 1/2, 1, 1, 1, true, 0, 1⟩ (some [(0, 1)]) (fun _ => 1)
        (fun x => sqnorm x) (fun _ => 1/2) true
      = constructAndRun ⟨2, 1, 1/2, 1, 1, 1, true, 0, 1⟩ (some [(0, 1)]) (fun _ => 1)
        (fun x => sqnorm x) (fun _ => 1/2) true :=
  c5_determinism ⟨2, 1, 1/2, 1, 1, 1, true, 0, 1⟩ (some [(0, 1)]) (fun _ => 1)
    (fun _ => 1) (fun x => sqnorm x) (fun x => sqnorm x) (fun _ => 1/2) (fun _ => 1/2)
    true (fun _ => rfl) (fun _ => rfl) (fun _ => rfl)

/-- C6: For every objective, every bounds list (arbitrary per-dimension
pairs, heterogeneous or broadcast — the `optimize` path is the instance
`bounds = as_bounds lower upper d`), hyperparameters, draw stream and exp
oracle, the constructed run with `minimize = true` on `f` and the constructed
run with `minimize = false` on the pointwise negation of `f` yield the same
best position, and the best value of the minimizing run equals the negation
of the best value of the maximizing run. -/
theorem c6_sign_symmetry (n d iters : ℕ) (alpha beta0 gamma : ℚ)
    (bounds : List (ℚ × ℚ)) (f : List ℚ → ℚ) (expO : ℚ → ℚ) (u : ℕ → ℚ)
    (track : Bool) :
    (runFA (⟨n, d, alpha, beta0, gamma, iters, true, bounds⟩ : Cfg) expO f u track
        (init_population (⟨n, d, alpha, beta0, gamma, iters, true, bounds⟩ : Cfg)
          f u)).best_x
      = (runFA (⟨n, d, alpha, beta0, gamma, iters, false, bounds⟩ : Cfg) expO
          (fun x => -(f x)) u track
          (init_population (⟨n, d, alpha, beta0, gamma, iters, false, bounds⟩ : Cfg)
            (fun x => -(f x)) u)).best_x
    ∧ (runFA (⟨n, d, alpha, beta0, gamma, iters, true, bounds⟩ : Cfg) expO f u track
        (init_population (⟨n, d, alpha, beta0, gamma, iters, true, bounds⟩ : Cfg)
          f u)).best_val
      = -((runFA (⟨n, d, alpha, beta0, gamma, iters, false, bounds⟩ : Cfg) expO
          (fun x => -(f x)) u track
          (init_population (⟨n, d, alpha, beta0, gamma, iters, false, bounds⟩ : Cfg)
            (fun x => -(f x)) u)).best_val) := by
  have hWF0 : WF (⟨n, d, alpha, beta0, gamma, iters, true, bounds⟩ : Cfg)
      (init_population (⟨n, d, alpha, beta0, gamma, iters, true, bounds⟩ : Cfg) f u) := by
    refine ⟨?_, ?_, ?_⟩
    · dsimp only [init_population]
      rw [List.length_map, List.length_range]
    · dsimp only [init_population]
      rw [List.length_map, List.length_map, List.length_range]
    · dsimp only [init_population]
      unfold brightness
      split
      · rw [List.length_map, List.length_map, List.length_map, List.length_range]
      · rw [List.length_map, List.length_map, List.length_range]
  obtain ⟨i1, i2, i3, i4, i5⟩ := init_neg_rel
    (⟨n, d, alpha, beta0, gamma, iters, true, bounds⟩ : Cfg) f u rfl
  obtain ⟨r1, r2, r3, r4, r5⟩ := stepIter_neg_rel
    (⟨n, d, alpha, beta0, gamma, iters, true, bounds⟩ : Cfg) expO f u
    rfl iters
    (init_population (⟨n, d, alpha, beta0, gamma, iters, true, bounds⟩ : Cfg) f u)
    (init_population ({ (⟨n, d, alpha, beta0, gamma, iters, true, bounds⟩ : Cfg) with
      minimize := false }) (fun x => -(f x)) u)
    hWF0 i1 i2 i4 i5 i3
  have hcfg : (⟨n, d, alpha, beta0, gamma, iters, false, bounds⟩ : Cfg)
      = { (⟨n, d, alpha, beta0, gamma, iters, true, bounds⟩ : Cfg) with
          minimize := false } := rfl
  dsimp only [runFA]
  rw [hcfg, runLoop_fst, runLoop_fst]
  constructor
  · rw [r1, r3]
  · rw [r5, r3, getD_map_neg, neg_neg]

/-- C7: For every configuration, `run` executes exactly `iters` steps with no
early stopping (the returned best point comes from the `iters`-fold step
iterate), returns the best firefly's position and objective value, a
best-value history of length exactly `iters`, a position-snapshot history of
length `iters + 1` exactly when tracking is requested, and with `iters = 0`
returns the initial population's best point and value unchanged with an empty
best-value history. -/
theorem c7_run_contract (c : Cfg) (expO : ℚ → ℚ) (f : List ℚ → ℚ) (u : ℕ → ℚ)
    (s : FAState) (track : Bool) :
    (runFA c expO f u track s).history_best.length = c.iters
    ∧ (track = true → ∃ l, (runFA c expO f u track s).history_positions = some l
        ∧ l.length = c.iters + 1)
    ∧ (track = false → (runFA c expO f u track s).history_positions = none)
    ∧ (runFA c expO f u track s).best_x
        = (stepIter c expO f u c.iters s).X.getD (stepIter c expO f u c.iters s).best_idx []
    ∧ (c.iters = 0 → (runFA c expO f u track s).best_x = s.X.getD s.best_idx []
        ∧ (runFA c expO f u track s).best_val = s.values.getD s.best_idx 0
        ∧ (runFA c expO f u track s).history_best = []) := by
  obtain ⟨hl1, hl2⟩ := runLoop_len c expO f u c.iters s
  refine ⟨hl1, ?_, ?_, ?_, ?_⟩
  · intro ht
    refine ⟨s.X :: (runLoop c expO f u c.iters s).2.2, ?_, ?_⟩
    · show (if track then some (s.X :: (runLoop c expO f u c.iters s).2.2) else none) = _
      simp only [ht, if_true]
    · rw [List.length_cons, hl2]
  · intro ht
    show (if track then some (s.X :: (runLoop c expO f u c.iters s).2.2) else none) = none
    simp only [ht, Bool.false_eq_true, if_false]
  · show (runLoop c expO f u c.iters s).1.X.getD (runLoop c expO f u c.iters s).1.best_idx []
      = _
    rw [runLoop_fst]
  · intro h0
    dsimp only [runFA]
    rw [h0]
    exact ⟨rfl, rfl, rfl⟩

/-- Witness for C7 at concrete configurations with `iters = 0` (tracking on
and off). -/
theorem c7_witness :
    (runFA (⟨2, 1, 1/2, 1, 1, 0, true, [(0, 1)]⟩ : Cfg) (fun _ => 1) (fun x => sqnorm x)
        (fun _ => 1/2) true ⟨[[0]], [0], [0], 0, 0⟩).history_best.length
      = (⟨2, 1, 1/2, 1, 1, 0, true, [(0, 1)]⟩ : Cfg).iters
    ∧ (∃ l, (runFA (⟨2, 1, 1/2, 1, 1, 0, true, [(0, 1)]⟩ : Cfg) (fun _ => 1)
        (fun x => sqnorm x) (fun _ => 1/2) true
        ⟨[[0]], [0], [0], 0, 0⟩).history_positions = some l
        ∧ l.length = (⟨2, 1, 1/2, 1, 1, 0, true, [(0, 1)]⟩ : Cfg).iters + 1)
    ∧ (runFA (⟨2, 1, 1/2, 1, 1, 0, true, [(0, 1)]⟩ : Cfg) (fun _ => 1) (fun x => sqnorm x)
        (fun _ => 1/2) false ⟨[[0]], [0], [0], 0, 0⟩).history_positions = none
    ∧ (runFA (⟨2, 1, 1/2, 1, 1, 0, true, [(0, 1)]⟩ : Cfg) (fun _ => 1) (fun x => sqnorm x)
        (fun _ => 1/2) true ⟨[[0]], [0], [0], 0, 0⟩).best_x
      = (⟨[[0]], [0], [0], 0, 0⟩ : FAState).X.getD 0 [] := by
  have h1 := c7_run_contract (⟨2, 1, 1/2, 1, 1, 0, true, [(0, 1)]⟩ : Cfg) (fun _ => 1)
    (fun x => sqnorm x) (fun _ => 1/2) ⟨[[0]], [0], [0], 0, 0⟩ true
  have h2 := c7_run_contract (⟨2, 1, 1/2, 1, 1, 0, true, [(0, 1)]⟩ : Cfg) (fun _ => 1)
    (fun x => sqnorm x) (fun _ => 1/2) ⟨[[0]], [0], [0], 0, 0⟩ false
  exact ⟨h1.1, h1.2.1 rfl, h2.2.2.1 rfl, (h1.2.2.2.2 rfl).1⟩

/-- C8 counterexample: the claim says non-positive `iters` or non-positive
dimensionality `d` must fail with a configuration error at construction; but
constructing with well-formed bounds and `iters = 0` succeeds, and so does
constructing with `d = 0` (population of empty points) — no error is raised
in either case. -/
theorem c8_counterexample :
    (fireflyInit ⟨1, 1, 1/2, 1, 1, 0, true, 0, 1⟩ (some [(0, 1)])
      (fun x => sqnorm x) (fun _ => 1/2)).isOk = true
    ∧ (⟨1, 1, 1/2, 1, 1, 0, true, 0, 1⟩ : FAParams).iters = 0
    ∧ (fireflyInit ⟨1, 0, 1/2, 1, 1, 5, true, 0, 1⟩ none
      (fun x => sqnorm x) (fun _ => 1/2)).isOk = true
    ∧ (⟨1, 0, 1/2, 1, 1, 5, true, 0, 1⟩ : FAParams).d = 0 := by
  with_unfolding_all decide

/-- C8 amended: construction fails in exactly three ways, all raised in
`__init__` before any step runs — explicit bounds with a pair count different
from `d` fail the shape assertion (`AssertionError`); with the shape right
(or on the `bounds=None` path), bounds with `lower > upper` on some dimension
or a zero population size `n` raise `ValueError` inside `_init_population`;
every other configuration, including non-positive `iters` and `d = 0`, is
accepted with no error. -/
theorem c8_amended (P : FAParams) (f : List ℚ → ℚ) (u : ℕ → ℚ) (bs : List (ℚ × ℚ)) :
    ((fireflyInit P (some bs) f u).isOk = true
      ↔ bs.length = P.d ∧ (∀ p ∈ bs, p.1 ≤ p.2) ∧ 0 < P.n)
    ∧ ((fireflyInit P none f u).isOk = true
      ↔ (∀ p ∈ as_bounds P.lower P.upper P.d, p.1 ≤ p.2) ∧ 0 < P.n)
    ∧ (bs.length ≠ P.d → fireflyInit P (some bs) f u = .error .assertionError)
    ∧ (bs.length = P.d → (fireflyInit P (some bs) f u).isOk = false →
        fireflyInit P (some bs) f u = .error .valueError) := by
  refine ⟨?_, ?_, ?_, ?_⟩
  · constructor
    · intro h
      by_cases hlen : bs.length = P.d
      · rw [fireflyInit_isOk P bs f u hlen] at h
        obtain ⟨hord, hn⟩ := (init_populationE_mk_ok_iff P bs f u).mp h
        exact ⟨hlen, hord, hn⟩
      · rw [fireflyInit_shape_error P bs f u hlen] at h
        exact absurd h (by decide)
    · rintro ⟨hlen, hord, hn⟩
      rw [fireflyInit_isOk P bs f u hlen]
      exact (init_populationE_mk_ok_iff P bs f u).mpr ⟨hord, hn⟩
  · rw [fireflyInit_none_isOk P f u]
    exact init_populationE_mk_ok_iff P (as_bounds P.lower P.upper P.d) f u
  · intro hlen
    exact fireflyInit_shape_error P bs f u hlen
  · intro hlen hko
    rcases init_populationE_cases (mkCfg P bs) f u with he | hok
    · exact fireflyInit_error_of_initE P bs f u hlen .valueError he
    · exfalso
      rw [fireflyInit_isOk P bs f u hlen, hok] at hko
      exact Bool.noConfusion hko

/-- Witness for the amended C8: a well-formed explicit-bounds construction
succeeds, a mis-shaped bounds list fails the assertion, and inverted bounds
with the right shape raise `ValueError`. -/
theorem c8_witness :
    (fireflyInit ⟨1, 1, 1/2, 1, 1, 0, true, 0, 1⟩ (some [(0, 1)])
      (fun x => sqnorm x) (fun _ => 1/2)).isOk = true
    ∧ fireflyInit ⟨1, 1, 1/2, 1, 1, 0, true, 0, 1⟩ (some [(0, 1), (0, 1)])
      (fun x => sqnorm x) (fun _ => 1/2) = .error .assertionError
    ∧ fireflyInit ⟨1, 1, 1/2, 1, 1, 0, true, 0, 1⟩ (some [(5, -5)])
      (fun x => sqnorm x) (fun _ => 1/2) = .error .valueError := by
  refine ⟨?_, ?_, ?_⟩
  · exact ((c8_amended ⟨1, 1, 1/2, 1, 1, 0, true, 0, 1⟩ (fun x => sqnorm x)
      (fun _ => 1/2) [(0, 1)]).1).mpr
      ⟨by decide, by with_unfolding_all decide, by decide⟩
  · exact (c8_amended ⟨1, 1, 1/2, 1, 1, 0, true, 0, 1⟩ (fun x => sqnorm x)
      (fun _ => 1/2) [(0, 1), (0, 1)]).2.2.1 (by decide)
  · exact (c8_amended ⟨1, 1, 1/2, 1, 1, 0, true, 0, 1⟩ (fun x => sqnorm x)
      (fun _ => 1/2) [(5, -5)]).2.2.2 (by decide) (by with_unfolding_all decide)

/-- C9 counterexample: the claim says a non-finite objective value is
propagated as an error; but with an objective returning the non-finite value
`+inf` at every point, a full run completes without any error — no finiteness
check exists in the code. -/
theorem c9_counterexample :
    FVal.isFinite FVal.posInf = false
    ∧ (runE (mkCfg ⟨1, 1, 1/2, 1, 1, 1, true, 0, 1⟩ (as_bounds 0 1 1)) (fun _ => 1)
        (fun _ => (Except.ok FVal.posInf : Except Unit FVal)) (fun _ => 1/2) 1
        ⟨[[0]], [FVal.fin 0], [FVal.fin 0], 0, 0⟩).isOk = true := by
  with_unfolding_all decide

/-- C9 amended: an exception raised by the objective propagates immediately
and unchanged out of the step and the run loop — no retry, no substituted
default, nothing swallowed, and every surfaced error originates from an
objective call; but an objective that returns (even a non-finite value such
as an infinity) never causes an error. -/
theorem c9_amended {ε : Type} (c : Cfg) (expO : ℚ → ℚ) (f : List ℚ → Except ε FVal)
    (u : ℕ → ℚ) (s : FAStateE) (k : ℕ) :
    (∀ g : List ℚ → FVal, (∀ x, f x = .ok (g x)) →
        (∃ s', stepE c expO f u s = .ok s') ∧ ∃ s', runE c expO f u k s = .ok s')
    ∧ (∀ e, stepE c expO f u s = .error e → ∃ x, f x = .error e)
    ∧ (∀ e, runE c expO f u k s = .error e → ∃ x, f x = .error e) := by
  refine ⟨?_, ?_, ?_⟩
  · intro g hg
    exact ⟨stepE_ok_of_total c expO f g hg u s, runE_ok_of_total c expO f g hg u k s⟩
  · intro e h
    exact stepE_error c expO f u s e h
  · intro e h
    exact runE_error c expO f u k s e h

/-- Witness for the amended C9. -/
theorem c9_witness :
    ∃ s', runE (mkCfg ⟨1, 1, 1/2, 1, 1, 1, true, 0, 1⟩ (as_bounds 0 1 1)) (fun _ => 1)
        (fun _ => (Except.ok (FVal.fin 1) : Except Unit FVal)) (fun _ => 1/2) 1
        ⟨[[0]], [FVal.fin 0], [FVal.fin 0], 0, 0⟩ = .ok s' :=
  ((c9_amended (mkCfg ⟨1, 1, 1/2, 1, 1, 1, true, 0, 1⟩ (as_bounds 0 1 1)) (fun _ => 1)
    (fun _ => (Except.ok (FVal.fin 1) : Except Unit FVal)) (fun _ => 1/2)
    ⟨[[0]], [FVal.fin 0], [FVal.fin 0], 0, 0⟩ 1).1
    (fun _ => FVal.fin 1) (fun _ => rfl)).2

/-- C10: Within one step, exactly one `d`-length vector of uniform draws is
consumed per ordered pair `(i, j)` with `brightness[j] > brightness[i]` (the
cursor advances by `d * totalBrighterPairs`); consequently a step in which no
firefly has a strictly brighter neighbor consumes no randomness and leaves
the random cursor, positions, values and brightness (the whole state)
unchanged. -/
theorem c10_randomness_consumption (c : Cfg) (expO : ℚ → ℚ) (f : List ℚ → ℚ)
    (u : ℕ → ℚ) (s : FAState) (hInv : FAInv c f s) :
    (stepFA c expO f u s).rngPos = s.rngPos + c.d * totalBrighterPairs s.I c.n
    ∧ (totalBrighterPairs s.I c.n = 0 → stepFA c expO f u s = s) :=
  ⟨stepFA_rngPos c expO f u s, fun h0 => stepFA_stationary c expO f u s hInv h0⟩

set_option maxRecDepth 8000 in
/-- Witness for C10 at a two-firefly state of equal brightness. -/
theorem c10_witness :
    FAInv (⟨2, 1, 1/2, 1, 1, 1, true, [(0, 1)]⟩ : Cfg) (fun _ => 0)
      ⟨[[0], [1]], [0, 0], [0, 0], 0, 0⟩
    ∧ ((stepFA (⟨2, 1, 1/2, 1, 1, 1, true, [(0, 1)]⟩ : Cfg) (fun _ => 1) (fun _ => 0)
          (fun _ => 1/2) ⟨[[0], [1]], [0, 0], [0, 0], 0, 0⟩).rngPos
        = (⟨[[0], [1]], [0, 0], [0, 0], 0, 0⟩ : FAState).rngPos
          + (⟨2, 1, 1/2, 1, 1, 1, true, [(0, 1)]⟩ : Cfg).d
            * totalBrighterPairs (⟨[[0], [1]], [0, 0], [0, 0], 0, 0⟩ : FAState).I
              (⟨2, 1, 1/2, 1, 1, 1, true, [(0, 1)]⟩ : Cfg).n
      ∧ (totalBrighterPairs (⟨[[0], [1]], [0, 0], [0, 0], 0, 0⟩ : FAState).I
            (⟨2, 1, 1/2, 1, 1, 1, true, [(0, 1)]⟩ : Cfg).n = 0 →
          stepFA (⟨2, 1, 1/2, 1, 1, 1, true, [(0, 1)]⟩ : Cfg) (fun _ => 1) (fun _ => 0)
            (fun _ => 1/2) ⟨[[0], [1]], [0, 0], [0, 0], 0, 0⟩
          = ⟨[[0], [1]], [0, 0], [0, 0], 0, 0⟩)) :=
  ⟨by with_unfolding_all decide,
   c10_randomness_consumption (⟨2, 1, 1/2, 1, 1, 1, true, [(0, 1)]⟩ : Cfg) (fun _ => 1)
     (fun _ => 0) (fun _ => 1/2) ⟨[[0], [1]], [0, 0], [0, 0], 0, 0⟩
     (by with_unfolding_all decide)⟩
